import Mathlib

/-!
Verification of the `my_crawler` repository (Rust) against its natural-language
specification, via a shallow embedding in Lean 4.

Modelling conventions:
* Rust `String` / `&str` values are modelled as `List Char` (abbreviated `Str`),
  which gives direct access to Mathlib's list lemmas.  `str` converts a Lean
  string literal into this representation.
* Rust `char::is_whitespace` is modelled by `Char.isWhitespace`; the two agree on
  ASCII whitespace, which is all the claims exercise.
* Rust `str::to_lowercase` is modelled by mapping `Char.toLower` over the
  characters; the two agree on ASCII input.
* Machine integers are modelled as `Nat` / `Int` with explicit `% 2 ^ w` where
  overflow matters (the SHA-256 core).  `f64` / `f32` scores are modelled as `ℚ`;
  every claim about them is order-theoretic, never about rounding.
* I/O (HTTP fetches, the headless browser, the HTML parser of the `scraper`
  crate, the `url` crate's resolver) is modelled by explicit oracle parameters
  or by small faithful parsers, as documented at each definition.
-/

/-- Rust strings are modelled as lists of characters. -/
abbrev Str := List Char

/-- Conversion from a Lean string literal to the `Str` model. -/
def str (s : String) : Str := s.data

/-- Model of Rust `char::is_whitespace` (agrees on ASCII whitespace). -/
def isWhite (c : Char) : Bool := c.isWhitespace

/-- Model of Rust `str::to_lowercase` (agrees on ASCII input). -/
def lowerStr (s : Str) : Str := s.map Char.toLower

/-- Auxiliary splitter: maximal runs of characters not satisfying `p`, with the
current partially-read run carried in reverse in `cur`. -/
def splitRunsAux (p : Char → Bool) : Str → Str → List Str
  | [], cur => if cur.isEmpty then [] else [cur.reverse]
  | c :: rest, cur =>
    if p c then
      if cur.isEmpty then splitRunsAux p rest []
      else cur.reverse :: splitRunsAux p rest []
    else splitRunsAux p rest (c :: cur)

/-- Maximal runs of characters not satisfying `p` (separators dropped). -/
def splitRuns (p : Char → Bool) (s : Str) : List Str := splitRunsAux p s []

/-- Model of Rust `str::split_whitespace` (as a list of words). -/
def splitWhitespace (s : Str) : List Str := splitRuns isWhite s

/-- Number of whitespace-separated words of a string. -/
def wordCount (s : Str) : Nat := (splitWhitespace s).length

/-- Model of Rust `str::trim`: strip leading and trailing whitespace. -/
def trimChars (s : Str) : Str :=
  ((s.dropWhile isWhite).reverse.dropWhile isWhite).reverse

/-- First index (if any) at which `pat` occurs as a contiguous substring of `s`. -/
def findSub (pat s : Str) : Option Nat :=
  (List.range (s.length + 1)).find? (fun i => pat.isPrefixOf (s.drop i))

/-- Model of Rust `str::contains` for a string pattern. -/
def containsSub (pat s : Str) : Bool :=
  (List.range (s.length + 1)).any (fun i => pat.isPrefixOf (s.drop i))

/-- Join a list of words with single spaces (Rust `join(" ")`). -/
def joinSpace (ws : List Str) : Str := (List.intersperse (str " ") ws).flatten

/-!
SHA-256 (the `sha2` crate used by `src/spider/src/dedup.rs`), implemented over
byte lists with `Nat` arithmetic reduced modulo `2 ^ 32`.
-/

namespace Sha256

/-- 2 ^ 32, the modulus of all word arithmetic. -/
def M32 : Nat := 4294967296

/-- Addition modulo 2 ^ 32. -/
def add32 (a b : Nat) : Nat := (a + b) % M32

/-- Right rotation of a 32-bit word. -/
def rotr (n x : Nat) : Nat := ((x >>> n) ||| ((x <<< (32 - n)) % M32))

def bsig0 (x : Nat) : Nat := rotr 2 x ^^^ rotr 13 x ^^^ rotr 22 x

def bsig1 (x : Nat) : Nat := rotr 6 x ^^^ rotr 11 x ^^^ rotr 25 x

def ssig0 (x : Nat) : Nat := rotr 7 x ^^^ rotr 18 x ^^^ (x >>> 3)

def ssig1 (x : Nat) : Nat := rotr 17 x ^^^ rotr 19 x ^^^ (x >>> 10)

def ch (x y z : Nat) : Nat := (x &&& y) ^^^ ((x ^^^ (M32 - 1)) &&& z)

def maj (x y z : Nat) : Nat := (x &&& y) ^^^ (x &&& z) ^^^ (y &&& z)

/-- The 64 round constants. -/
def K : List Nat :=
  [1116352408, 1899447441, 3049323471, 3921009573, 961987163, 1508970993,
   2453635748, 2870763221, 3624381080, 310598401, 607225278, 1426881987,
   1925078388, 2162078206, 2614888103, 3248222580, 3835390401, 4022224774,
   264347078, 604807628, 770255983, 1249150122, 1555081692, 1996064986,
   2554220882, 2821834349, 2952996808, 3210313671, 3336571891, 3584528711,
   113926993, 338241895, 666307205, 773529912, 1294757372, 1396182291,
   1695183700, 1986661051, 2177026350, 2456956037, 2730485921, 2820302411,
   3259730800, 3345764771, 3516065817, 3600352804, 4094571909, 275423344,
   430227734, 506948616, 659060556, 883997877, 958139571, 1322822218,
   1537002063, 1747873779, 1955562222, 2024104815, 2227730452, 2361852424,
   2428436474, 2756734187, 3204031479, 3329325298]

/-- Big-endian byte representation of `n` on `k` bytes. -/
def toBytesBE (k n : Nat) : List Nat :=
  (List.range k).map (fun i => (n >>> (8 * (k - 1 - i))) % 256)

/-- Standard SHA-2 padding: `0x80`, zeros, 8-byte big-endian bit length. -/
def padMessage (msg : List Nat) : List Nat :=
  let L := msg.length
  let padZeros := (64 - ((L + 9) % 64)) % 64
  msg ++ 0x80 :: (List.replicate padZeros 0 ++ toBytesBE 8 ((8 * L) % 2 ^ 64))

/-- Split a byte list into 64-byte blocks; structurally recursive on a fuel
argument so that it reduces definitionally (the fuel `l.length` always
suffices, since each step consumes a nonempty list). -/
def toBlocksAux : Nat → List Nat → List (List Nat)
  | 0, _ => []
  | fuel + 1, l => if l.isEmpty then [] else l.take 64 :: toBlocksAux fuel (l.drop 64)

/-- Split a (padded) byte list into 64-byte blocks. -/
def toBlocks (l : List Nat) : List (List Nat) := toBlocksAux l.length l

/-- The first 16 words of the message schedule, big-endian from the block. -/
def initW (block : List Nat) : List Nat :=
  (List.range 16).map (fun i =>
    ((block.getD (4 * i) 0) <<< 24) + ((block.getD (4 * i + 1) 0) <<< 16) +
      ((block.getD (4 * i + 2) 0) <<< 8) + block.getD (4 * i + 3) 0)

/-- Extend the message schedule by `n` further words. -/
def extendW : Nat → List Nat → List Nat
  | 0, w => w
  | n + 1, w =>
    let t := w.length
    let nw := add32 (add32 (ssig1 (w.getD (t - 2) 0)) (w.getD (t - 7) 0))
      (add32 (ssig0 (w.getD (t - 15) 0)) (w.getD (t - 16) 0))
    extendW n (w ++ [nw])

/-- The eight 32-bit working variables. -/
structure Hash8 where
  a : Nat
  b : Nat
  c : Nat
  d : Nat
  e : Nat
  f : Nat
  g : Nat
  h : Nat

/-- One compression round. -/
def step (s : Hash8) (kt wt : Nat) : Hash8 :=
  let t1 := add32 (add32 (add32 s.h (bsig1 s.e)) (add32 (ch s.e s.f s.g) kt)) wt
  let t2 := add32 (bsig0 s.a) (maj s.a s.b s.c)
  ⟨add32 t1 t2, s.a, s.b, s.c, add32 s.d t1, s.e, s.f, s.g⟩

/-- Compress one 64-byte block into the running hash state. -/
def compress (s0 : Hash8) (block : List Nat) : Hash8 :=
  let w := extendW 48 (initW block)
  let sf := (List.range 64).foldl (fun s t => step s (K.getD t 0) (w.getD t 0)) s0
  ⟨add32 s0.a sf.a, add32 s0.b sf.b, add32 s0.c sf.c, add32 s0.d sf.d,
   add32 s0.e sf.e, add32 s0.f sf.f, add32 s0.g sf.g, add32 s0.h sf.h⟩

/-- The initial hash value. -/
def H0 : Hash8 :=
  ⟨0x6a09e667, 0xbb67ae85, 0x3c6ef372, 0xa54ff53a,
   0x510e527f, 0x9b05688c, 0x1f83d9ab, 0x5be0cd19⟩

/-- SHA-256 digest (32 bytes) of a byte list. -/
def sha256 (msg : List Nat) : List Nat :=
  let fin := (toBlocks (padMessage msg)).foldl compress H0
  toBytesBE 4 fin.a ++ toBytesBE 4 fin.b ++ toBytesBE 4 fin.c ++ toBytesBE 4 fin.d ++
    toBytesBE 4 fin.e ++ toBytesBE 4 fin.f ++ toBytesBE 4 fin.g ++ toBytesBE 4 fin.h

end Sha256

/-- UTF-8 encoding of one character (Rust `str::as_bytes` views strings as UTF-8). -/
def utf8EncodeChar (c : Char) : List Nat :=
  let n := c.toNat
  if n < 128 then [n]
  else if n < 2048 then [192 + (n >>> 6), 128 + (n % 64)]
  else if n < 65536 then [224 + (n >>> 12), 128 + ((n >>> 6) % 64), 128 + (n % 64)]
  else [240 + (n >>> 18), 128 + ((n >>> 12) % 64), 128 + ((n >>> 6) % 64), 128 + (n % 64)]

/-- UTF-8 encoding of a string as a byte list. -/
def utf8Encode (s : Str) : List Nat := (s.map utf8EncodeChar).flatten

/-!
`src/spider/src/dedup.rs` — `ContentDedup`.  The `RwLock<HashSet<[u8; 32]>>` is
modelled as an explicit list of 32-byte digests threaded through the calls; the
read-lock / write-lock / re-check dance collapses to a single membership test in
this sequential model (the claim C5 is about a sequence of calls).
-/

namespace ContentDedup

/-- `ContentDedup::normalize`: lowercase, collapse whitespace runs, trim
(realised in the source as `to_lowercase().split_whitespace().join(" ")`). -/
def normalize (content : Str) : Str := joinSpace (splitWhitespace (lowerStr content))

/-- `ContentDedup::hash`: SHA-256 of the UTF-8 bytes of the normalized content. -/
def hash (content : Str) : List Nat := Sha256.sha256 (utf8Encode (normalize content))

/-- `ContentDedup::is_duplicate`: returns whether the hash was already seen and
the updated seen-set. -/
def is_duplicate (seen : List (List Nat)) (content : Str) : Bool × List (List Nat) :=
  let h := hash content
  if h ∈ seen then (true, seen) else (false, h :: seen)

/-- The seen-set after a sequence of `is_duplicate` calls starting from empty. -/
def runCalls (cs : List Str) : List (List Nat) :=
  cs.foldl (fun s c => (is_duplicate s c).2) []

end ContentDedup

/-!
`src/shared_crawler_api/src/lib.rs` — `WebPageChunk` and its Weaviate JSON
parser.  `serde_json::Value` is modelled by the inductive `Json`; `as_str`
succeeds exactly on strings, `as_f64` on numbers (modelled exactly over `ℚ`),
`as_i64` on integer-valued numbers in the `i64` range.
-/

inductive Json where
  | jnull
  | jbool (b : Bool)
  | jnum (q : ℚ)
  | jstr (s : Str)
  | jarr (xs : List Json)
  | jobj (fields : List (Str × Json))

/-- Model of `serde_json::Value::get` for a string key (`None` off objects). -/
def Json.get : Json → Str → Option Json
  | .jobj fields, key => (fields.find? (fun p => p.1 == key)).map (·.2)
  | _, _ => none

/-- Model of `Value::as_str`. -/
def Json.as_str : Json → Option Str
  | .jstr s => some s
  | _ => none

/-- Model of `Value::as_f64`. -/
def Json.as_f64 : Json → Option ℚ
  | .jnum q => some q
  | _ => none

/-- Model of `Value::as_i64` (integer-valued numbers within the `i64` range). -/
def Json.as_i64 : Json → Option Int
  | .jnum q =>
    if q.den = 1 ∧ -(2 ^ 63) ≤ q.num ∧ q.num < 2 ^ 63 then some q.num else none
  | _ => none

/-- `WebPageChunk` of `src/shared_crawler_api/src/lib.rs` (`f64` score as `ℚ`). -/
structure WebPageChunk where
  chunk_content : Str
  chunk_heading : Option Str
  source_url : Str
  page_title : Str
  description : Str
  score : ℚ
  crawled_at : Int
deriving DecidableEq

/-- `WebPageChunk::from_weaviate_json`, field for field. -/
def WebPageChunk.from_weaviate_json (value : Json) : Option WebPageChunk :=
  some
    { chunk_content := ((value.get (str "chunk_content")).bind Json.as_str).getD []
      chunk_heading := (value.get (str "chunk_heading")).bind Json.as_str
      source_url := ((value.get (str "source_url")).bind Json.as_str).getD []
      page_title := ((value.get (str "page_title")).bind Json.as_str).getD (str "No Title")
      description :=
        ((value.get (str "description")).bind Json.as_str).getD
          (str "No description available")
      score := ((value.get (str "score")).bind Json.as_f64).getD 0
      crawled_at := ((value.get (str "crawled_at")).bind Json.as_i64).getD 0 }

/-!
`src/spider/src/web_visitor.rs` — `extract_links`.  The `scraper` crate's HTML
parsing and DOM traversal are external; an `Anchor` records exactly what the
source loop reads off each selected `a[href]` element: the `style` attribute,
whether some ancestor is a `<script>` element, and the raw `href` attribute.
The `url` crate's `base_url.join(..)` followed by `to_string()` is modelled by
the oracle `joinUrl` (`none` for a join error); the properties are proved for
every such oracle.
-/

structure Anchor where
  style : Option Str
  inScript : Bool
  href : Str

/-- The hidden-style filter of `extract_links`. -/
def isHiddenStyle (style : Str) : Bool :=
  let l := lowerStr style
  containsSub (str "display:none") l || containsSub (str "display: none") l ||
    containsSub (str "visibility:hidden") l || containsSub (str "visibility: hidden") l

/-- The per-anchor pipeline of `extract_links`: hidden-style filter,
script-ancestor filter, scheme/`undefined` prefilter on the trimmed href, URL
resolution via `joinUrl`, then the absolute-http(s) / no-fragment /
no-`undefined` filter on the resolved URL string. -/
def skipHref (href : Str) : Bool :=
  href.isEmpty || (str "javascript:").isPrefixOf href ||
    (str "mailto:").isPrefixOf href || (str "tel:").isPrefixOf href ||
    (str "data:").isPrefixOf href || containsSub (str "undefined") href

def keepResolved (u : Str) : Bool :=
  ((str "http://").isPrefixOf u || (str "https://").isPrefixOf u) &&
    !(decide ('#' ∈ u)) && !(containsSub (str "undefined") u)

def anchorLink (joinUrl : Str → Option Str) (a : Anchor) : Option Str :=
  if (match a.style with | some st => isHiddenStyle st | none => false) then none
  else if a.inScript then none
  else if skipHref (trimChars a.href) then none
  else
    match joinUrl (trimChars a.href) with
    | none => none
    | some u => if keepResolved u then some u else none

/-- Strip a leading `http://` or `https://` (`replacen` guarded by
`starts_with`). -/
def stripScheme (url : Str) : Str :=
  if (str "http://").isPrefixOf url then url.drop 7
  else if (str "https://").isPrefixOf url then url.drop 8
  else url

/-- Strip a leading `www.`. -/
def stripWww (u : Str) : Str :=
  if (str "www.").isPrefixOf u then u.drop 4 else u

/-- Strip a trailing `/` (`ends_with` then `strip_suffix`). -/
def stripSlash (u : Str) : Str :=
  if u.getLast? = some '/' then u.dropLast else u

/-- The final normalization of `extract_links`: strip a leading scheme, a
leading `www.`, and a trailing `/`. -/
def stripLink (url : Str) : Str := stripSlash (stripWww (stripScheme url))

/-- Lexicographic string comparison (Rust `Ord` on `String`; byte order and
code-point order agree under UTF-8). -/
def cmpStrLE : Str → Str → Bool
  | [], _ => true
  | _ :: _, [] => false
  | a :: as, b :: bs => if a < b then true else if b < a then false else cmpStrLE as bs

/-- Rust `Vec::sort` (stable; for a total order any stable sort is extensionally
the unique sorted permutation, modelled by insertion sort). -/
def sortLinks (l : List Str) : List Str :=
  List.insertionSort (fun a b => cmpStrLE a b = true) l

/-- Rust `Vec::dedup`: remove consecutive equal elements. -/
def dedupAdjacent (l : List Str) : List Str := l.destutter (· ≠ ·)

/-- `extract_links` of `src/spider/src/web_visitor.rs` over the anchor list of
the parsed document: per-anchor filtering and resolution, in-place stripping of
scheme/`www.`/trailing slash, then `sort` and `dedup`. -/
def extract_links (joinUrl : Str → Option Str) (anchors : List Anchor) : List Str :=
  let links := (anchors.filterMap (anchorLink joinUrl)).map stripLink
  dedupAdjacent (sortLinks links)

/-!
`src/spider/src/index.rs` — token estimation, sentence splitting and chunking.
-/

/-- `estimate_tokens`: `(word_count as f64 * 1.33) as usize` truncates, giving
`⌊133·w/100⌋` for `w` words (the f64 representation error of `1.33` is about
`7·10⁻¹⁷` and cannot move `1.33·w` across an integer boundary, because `133·w/100`
is either an integer exactly or at distance ≥ `1/100` from one). -/
def estimate_tokens (text : Str) : Nat := wordCount text * 133 / 100

/-- `ContentBlock` of `src/spider/src/index.rs`. -/
structure ContentBlock where
  heading : Option Str
  text : Str

/-- `split_into_sentences`, with the growing `current_sentence` as accumulator:
every character is pushed, and after `.`, `!` or `?` the trimmed sentence is
emitted; a non-empty trimmed residue is emitted at the end. -/
def splitSentencesAux : Str → Str → List Str
  | [], cur => if (trimChars cur).isEmpty then [] else [trimChars cur]
  | c :: rest, cur =>
    if c = '.' ∨ c = '!' ∨ c = '?' then
      trimChars (cur ++ [c]) :: splitSentencesAux rest []
    else splitSentencesAux rest (cur ++ [c])

/-- `split_into_sentences` of `src/spider/src/index.rs`. -/
def split_into_sentences (text : Str) : List Str := splitSentencesAux text []

/-- `WebPageChunk::new` as invoked by `create_chunks` (`index.rs` passes six
arguments; the `score` field of the shared struct is not among them and is
modelled as 0 — no claim depends on it). -/
def mkChunk (content : Str) (heading : Option Str) (url title desc : Str)
    (crawled_at : Int) : WebPageChunk :=
  { chunk_content := content, chunk_heading := heading, source_url := url,
    page_title := title, description := desc, score := 0, crawled_at := crawled_at }

/-- The sentence loop inside the oversized-block branch of `create_chunks`:
returns the grown chunk list together with the final `sentence_chunk` and its
accumulated token count. -/
def sentenceLoop (heading : Option Str) (url title desc : Str) (t : Int) :
    List Str → Str → Nat → List WebPageChunk → List WebPageChunk × Str × Nat
  | [], sc, stok, chunks => (chunks, sc, stok)
  | s :: rest, sc, stok, chunks =>
    if stok + estimate_tokens s > 700 ∧ sc ≠ [] then
      sentenceLoop heading url title desc t rest (s ++ [' ']) (estimate_tokens s)
        (chunks ++ [mkChunk (trimChars sc) heading url title desc t])
    else
      sentenceLoop heading url title desc t rest (sc ++ s ++ [' '])
        (stok + estimate_tokens s) chunks

/-- The accumulator of `create_chunks`: emitted chunks, `current_chunk_text`,
`current_heading` and `current_tokens`. -/
structure ChunkAcc where
  chunks : List WebPageChunk
  curText : Str
  curHeading : Option Str
  curTokens : Nat

/-- Flush `current_chunk_text` into a chunk and clear the accumulator. -/
def flushCur (url title desc : Str) (t : Int) (acc : ChunkAcc) : ChunkAcc :=
  { chunks := acc.chunks ++
      [mkChunk (trimChars acc.curText) acc.curHeading url title desc t],
    curText := [], curHeading := acc.curHeading, curTokens := 0 }

/-- The oversized-block branch of `create_chunks` after the initial flush:
run the sentence loop and flush a non-empty final `sentence_chunk`; the block's
heading becomes `current_heading`. -/
def bigBlockStep (url title desc : Str) (t : Int) (acc1 : ChunkAcc)
    (block : ContentBlock) : ChunkAcc :=
  { chunks :=
      if (sentenceLoop block.heading url title desc t
            (split_into_sentences block.text) [] 0 acc1.chunks).2.1 ≠ [] then
        (sentenceLoop block.heading url title desc t
            (split_into_sentences block.text) [] 0 acc1.chunks).1 ++
          [mkChunk
            (trimChars (sentenceLoop block.heading url title desc t
              (split_into_sentences block.text) [] 0 acc1.chunks).2.1)
            block.heading url title desc t]
      else
        (sentenceLoop block.heading url title desc t
            (split_into_sentences block.text) [] 0 acc1.chunks).1,
    curText := acc1.curText, curHeading := block.heading,
    curTokens := acc1.curTokens }

/-- `current_heading` update: adopt the block's heading when it has one. -/
def newHeading (acc1 : ChunkAcc) (block : ContentBlock) : Option Str :=
  if block.heading.isSome then block.heading else acc1.curHeading

/-- Append a block's text to `current_chunk_text` with a single-space
separator when the accumulator is non-empty. -/
def appendText (cur btext : Str) : Str :=
  if cur.isEmpty then btext else cur ++ ' ' :: btext

/-- The ordinary-block branch of `create_chunks` after the overflow pre-flush:
update heading, append text and tokens, and flush once `MIN_CHUNK_TOKENS` is
reached. -/
def smallBlockStep (url title desc : Str) (t : Int) (acc1 : ChunkAcc)
    (block : ContentBlock) : ChunkAcc :=
  if acc1.curTokens + estimate_tokens block.text ≥ 300 then
    { chunks := acc1.chunks ++
        [mkChunk (trimChars (appendText acc1.curText block.text))
          (newHeading acc1 block) url title desc t],
      curText := [], curHeading := newHeading acc1 block, curTokens := 0 }
  else
    { chunks := acc1.chunks, curText := appendText acc1.curText block.text,
      curHeading := newHeading acc1 block,
      curTokens := acc1.curTokens + estimate_tokens block.text }

/-- One iteration of the block loop of `create_chunks`, mirrored branch by
branch from `src/spider/src/index.rs`. -/
def processBlock (url title desc : Str) (t : Int) (acc : ChunkAcc)
    (block : ContentBlock) : ChunkAcc :=
  if estimate_tokens block.text > 700 then
    bigBlockStep url title desc t
      (if acc.curText ≠ [] then flushCur url title desc t acc else acc) block
  else
    smallBlockStep url title desc t
      (if acc.curTokens + estimate_tokens block.text > 700 then
        if acc.curText ≠ [] ∧ acc.curTokens > 0 then flushCur url title desc t acc
        else acc
      else acc) block

/-- `create_chunks` of `src/spider/src/index.rs`: fold the block loop, then
flush the residue. -/
def create_chunks (blocks : List ContentBlock) (url title desc : Str) (t : Int) :
    List WebPageChunk :=
  let acc := blocks.foldl (processBlock url title desc t) ⟨[], [], none, 0⟩
  if acc.curText ≠ [] then
    acc.chunks ++ [mkChunk (trimChars acc.curText) acc.curHeading url title desc t]
  else acc.chunks

/-- `extract_webpage_data` of `src/spider/src/index.rs`.  The `scraper`-based
`extract_title`, `extract_content_blocks` and `extract_description` run on the
parsed HTML upstream of the chunker and are abstracted as the `title`, `blocks`
and `desc` inputs; `t` stands for the system-clock reading `crawled_at`. -/
def extract_webpage_data (url title desc : Str) (blocks : List ContentBlock)
    (t : Int) : List WebPageChunk :=
  let chunks := create_chunks blocks url title desc t
  if chunks.isEmpty then [mkChunk [] none url title desc t] else chunks

/-- A block of 301 words, token estimate `⌊301·1.33⌋ = 400 ≤ 700`. -/
def cexBigText : Str := joinSpace (List.replicate 301 (str "a"))

/-- Counterexample input for C7: 99 three-word blocks and two one-word blocks
accumulate a tracked count of 299 tokens (299 words), and the final 301-word
block passes the `299 + 400 ≤ 700` overflow check, so the flushed chunk holds
600 words — token estimate `⌊600·1.33⌋ = 798 > 700`. -/
def cexBlocks : List ContentBlock :=
  List.replicate 99 ⟨none, str "a a a"⟩ ++
    [⟨none, str "a"⟩, ⟨none, str "a"⟩, ⟨none, cexBigText⟩]

/-!
`src/spider/src/crawl_loop.rs` — the per-job BFS loop of `CrawlRunner::start`
(lines 156–342).  I/O is abstracted by oracles: `httpFetch` models
`WebVisitorImpl::fetch_page`, `browserFetch` models
`WebVisitorBrowser::fetch_page`, and `linksOf url html` models
`extract_links(&html, &Url::parse(&url).unwrap())` (the HTML/URL parsing is in
external crates).  Per-base-url rate limiting only sleeps and has no other
observable effect, so it is not part of the state.  The `trace` records every
fetcher invocation and every indexing call — exactly what C1–C4 are about.
-/

/-- `CrawlRequest` as consumed by the runner: `url`, `max_pages`,
`same_domain`.  The struct used by `crawl_loop.rs` carries no depth bound and
no retry counter. -/
structure CrawlRequest where
  url : Str
  max_pages : Nat
  same_domain : Bool

/-- The browser-fallback knobs of `CrawlLoopSettings`. -/
structure CrawlLoopSettings where
  browser_fallback_enabled : Bool
  browser_fallback_min_html_size : Nat

/-- Outcome of a fetch oracle. -/
inductive FetchOutcome where
  | ok (html : Str)
  | fetchErr

/-- Modelled from the spec: `normalize_url` is imported by `crawl_loop.rs` from
`web_visitor.rs`, but the function itself is not in `src/`; spec §4.1 says
"strip trailing `/`; preserve scheme, host, port, path, query". -/
def normalize_url (url : Str) : Str :=
  if url.getLast? = some '/' then url.dropLast else url

/-- Modelled from the spec: `get_base_url` is imported by `crawl_loop.rs` from
`web_visitor.rs`, but the function itself is not in `src/`; spec §4.1 says
`origin(url) = scheme://host[:port]`.  URLs without `://` yield the empty
origin (the spec says malformed URLs fail closed). -/
def get_base_url (url : Str) : Str :=
  match findSub (str "://") url with
  | none => []
  | some i =>
    url.take i ++ str "://" ++ (url.drop (i + 3)).takeWhile (fun c => c ≠ '/')

/-- The SPA markers of the browser-fallback heuristic (the source also checks
`window.__NEXT_DATA__` lowercased, which equals `window.__next_data__`). -/
def spaMarkers : List Str :=
  [str "<noscript", str "id=\"app\"", str "id=\"root\"", str "data-reactroot",
   str "__next_data__", str "window.__initial_state__", str "window.__next_data__"]

/-- The browser-fallback decision of the runner: enabled, and the body is
blank, small, or carries an SPA marker (length in characters; equal to Rust's
byte length on ASCII bodies). -/
def tryBrowserHeuristic (settings : CrawlLoopSettings) (html : Str) : Bool :=
  settings.browser_fallback_enabled &&
    (if (trimChars html).isEmpty then true
     else if html.length < settings.browser_fallback_min_html_size then true
     else spaMarkers.any (fun m => containsSub m (lowerStr html)))

/-- Observable events of a crawl run. -/
inductive CrawlEvent where
  | fetchHttp (url : Str)
  | fetchBrowser (url : Str)
  | indexPage (url : Str) (html : Str)
deriving DecidableEq

/-- The environment of a run: the claimed job, settings and the I/O oracles. -/
structure CrawlEnv where
  req : CrawlRequest
  settings : CrawlLoopSettings
  httpFetch : Str → FetchOutcome
  browserFetch : Str → FetchOutcome
  linksOf : Str → Str → List Str
  hasClient : Bool

/-- The mutable state of the BFS loop, plus the event trace. -/
structure CrawlState where
  to_visit : List Str
  visited : List Str
  pages_crawled : Nat
  trace : List CrawlEvent

/-- The link-expansion loop at the bottom of the runner: same-domain filter
against the seed's base URL, normalization, and de-duplication against both
`visited` and the frontier. -/
def pushLinks (env : CrawlEnv) (st : CrawlState) (links : List Str) : CrawlState :=
  links.foldl
    (fun st l =>
      if env.req.same_domain ∧ get_base_url l ≠ get_base_url env.req.url then st
      else if normalize_url l ∉ st.visited ∧ normalize_url l ∉ st.to_visit then
        { st with to_visit := st.to_visit ++ [normalize_url l] }
      else st)
    st

/-- The browser-fallback step: when the heuristic fires, invoke the browser
fetcher and keep its body only if non-blank. -/
def applyBrowser (env : CrawlEnv) (url : Str) (st : CrawlState) (html : Str) :
    CrawlState × Str :=
  if tryBrowserHeuristic env.settings html then
    match env.browserFetch url with
    | .ok bh =>
      if (trimChars bh).isEmpty then
        ({ st with trace := st.trace ++ [CrawlEvent.fetchBrowser url] }, html)
      else ({ st with trace := st.trace ++ [CrawlEvent.fetchBrowser url] }, bh)
    | .fetchErr => ({ st with trace := st.trace ++ [CrawlEvent.fetchBrowser url] }, html)
  else (st, html)

/-- Indexing: `index_page_safe_with_client` is called exactly when a Weaviate
client is attached. -/
def indexedState (env : CrawlEnv) (url html : Str) (st : CrawlState) : CrawlState :=
  if env.hasClient then { st with trace := st.trace ++ [CrawlEvent.indexPage url html] }
  else st

/-- The tail of a successful fetch: blank bodies are counted and marked
visited without link extraction; otherwise the page is marked visited,
indexed, and its links expanded. -/
def afterFetch (env : CrawlEnv) (url : Str) (st : CrawlState) (html : Str) :
    CrawlState :=
  if (trimChars html).isEmpty then
    { st with pages_crawled := st.pages_crawled + 1, visited := url :: st.visited }
  else
    pushLinks env
      (indexedState env url html
        { st with pages_crawled := st.pages_crawled + 1, visited := url :: st.visited })
      (env.linksOf url html)

/-- One iteration of the BFS loop body on a dequeued URL: visited check,
HTTP fetch (traced), browser fallback, then the success or error tail.  On a
fetch error the URL is only marked visited — there is no retry. -/
def crawlStep (env : CrawlEnv) (st0 : CrawlState) (url : Str) : CrawlState :=
  if url ∈ st0.visited then st0
  else
    match env.httpFetch url with
    | .fetchErr =>
      { st0 with trace := st0.trace ++ [CrawlEvent.fetchHttp url],
                 visited := url :: st0.visited }
    | .ok html0 =>
      afterFetch env url
        (applyBrowser env url
          { st0 with trace := st0.trace ++ [CrawlEvent.fetchHttp url] } html0).1
        (applyBrowser env url
          { st0 with trace := st0.trace ++ [CrawlEvent.fetchHttp url] } html0).2

/-- The `while` loop of the runner (fuel-indexed so it reduces; the loop runs
while pages_crawled < max_pages and the frontier is non-empty). -/
def crawlIter (env : CrawlEnv) : Nat → CrawlState → CrawlState
  | 0, st => st
  | fuel + 1, st =>
    if st.pages_crawled < env.req.max_pages ∧ st.to_visit ≠ [] then
      match st.to_visit with
      | [] => st
      | url :: rest => crawlIter env fuel (crawlStep env { st with to_visit := rest } url)
    else st

/-- A whole job: seed the frontier with the normalized request URL and loop. -/
def crawlRun (env : CrawlEnv) (fuel : Nat) : CrawlState :=
  crawlIter env fuel ⟨[normalize_url env.req.url], [], 0, []⟩

/-!
`src/spider/src/robots.rs` — `RobotsCache`.  The cached fetch result is given
as the raw `robots.txt` text (`RobotsTxtResult::Fetched`); `check_allowed`
parses it with the external `robots_txt` crate, which is modelled from the
spec below.
-/

/-- The crawler's user agent (`src/spider/src/main.rs`). -/
def USER_AGENT : Str := str "PoliteWebCrawler"

/-- A single robots.txt rule. -/
structure RobotsRule where
  allow : Bool
  path : Str

/-- A robots.txt section: user agents and their rules. -/
structure RSection where
  agents : List Str
  rules : List RobotsRule

/-- Lines of a text (maximal runs without `'\n'`). -/
def splitLines (s : Str) : List Str := splitRuns (fun c => c = '\n') s

/-- Strip a directive keyword and return its trimmed value. -/
def stripDirective (pfx line : Str) : Option Str :=
  if pfx.isPrefixOf line then some (trimChars (line.drop pfx.length)) else none

/-- Modelled from the spec: the `robots_txt` crate's parser is an external
dependency; spec §4.4 describes sections selected by user agent with
allow/disallow rules.  Each `User-agent:` line opens a section; `Disallow:` and
`Allow:` lines append rules to the last open section. -/
def parseRobotsTxt (txt : Str) : List RSection :=
  (splitLines txt).foldl
    (fun sections line =>
      match stripDirective (str "User-agent:") (trimChars line) with
      | some agent => sections ++ [⟨[agent], []⟩]
      | none =>
        match stripDirective (str "Disallow:") (trimChars line) with
        | some p =>
          match sections.getLast? with
          | some sec => sections.dropLast ++ [⟨sec.agents, sec.rules ++ [⟨false, p⟩]⟩]
          | none => sections
        | none =>
          match stripDirective (str "Allow:") (trimChars line) with
          | some p =>
            match sections.getLast? with
            | some sec => sections.dropLast ++ [⟨sec.agents, sec.rules ++ [⟨true, p⟩]⟩]
            | none => sections
          | none => sections)
    []

/-- Modelled from the spec: §4.4 "select the rule section matching the
crawler's User-Agent (falling back to `*`)". -/
def chooseSection (ua : Str) (sections : List RSection) : Option RSection :=
  match sections.find? (fun s => s.agents.contains ua) with
  | some s => some s
  | none => sections.find? (fun s => s.agents.contains (str "*"))

/-- Modelled from the spec: §4.4 "apply longest-match allow/disallow"; empty
rule paths (bare `Disallow:`) match nothing; no matching rule means allowed. -/
def checkPath (rules : List RobotsRule) (path : Str) : Bool :=
  match (rules.filter (fun r => !r.path.isEmpty && r.path.isPrefixOf path)).foldl
      (fun best r =>
        match best with
        | none => some r
        | some b => if r.path.length > b.path.length then some r else some b)
      none with
  | none => true
  | some r => r.allow

/-- The path component of a URL (the `url` crate's `Url::path`, which returns
`"/"` for an empty path). -/
def urlPath (url : Str) : Str :=
  match findSub (str "://") url with
  | none => str "/"
  | some i =>
    match (url.drop (i + 3)).dropWhile (fun c => c ≠ '/') with
    | [] => str "/"
    | p => p

/-- `RobotsCache::is_allowed` for a URL whose origin's robots.txt was fetched
as `txt` (`RobotsTxtResult::Fetched txt`): choose the section for the user
agent and check the URL's path. -/
def robots_is_allowed (txt : Str) (url : Str) : Bool :=
  match chooseSection USER_AGENT (parseRobotsTxt txt) with
  | none => true
  | some sec => checkPath sec.rules (urlPath url)

/-- C1's failing input: a URL whose origin's robots.txt disallows its path. -/
def c1url : Str := str "https://c.test/private/doc"

/-- robots.txt disallowing `/private/` for every user agent. -/
def c1robots : Str := str "User-agent: *\nDisallow: /private/"

/-- C1's crawl environment: a job seeded at the disallowed URL (browser
fallback off, links irrelevant). -/
def c1env : CrawlEnv :=
  { req := ⟨c1url, 10, true⟩,
    settings := ⟨false, 1024⟩,
    httpFetch := fun _ => .ok (str "<p>hello world</p>"),
    browserFetch := fun _ => .fetchErr,
    linksOf := fun _ _ => [],
    hasClient := true }

/-- C2's seed and a two-hop chain on the same host. -/
def c2u0 : Str := str "https://d.test/a"

def c2u1 : Str := str "https://d.test/b"

def c2u2 : Str := str "https://d.test/c"

/-- C2's crawl environment: the seed links to `c2u1`, which links to `c2u2`. -/
def c2env : CrawlEnv :=
  { req := ⟨c2u0, 10, true⟩,
    settings := ⟨false, 1024⟩,
    httpFetch := fun _ => .ok (str "<p>x</p>"),
    browserFetch := fun _ => .fetchErr,
    linksOf := fun url _ => if url = c2u0 then [c2u1] else if url = c2u1 then [c2u2] else [],
    hasClient := true }

/-- C3's crawl environment: every fetch fails. -/
def c3env : CrawlEnv :=
  { req := ⟨c2u0, 10, true⟩,
    settings := ⟨false, 1024⟩,
    httpFetch := fun _ => .fetchErr,
    browserFetch := fun _ => .fetchErr,
    linksOf := fun _ _ => [],
    hasClient := true }

/-- C4's page body, identical for both URLs. -/
def c4body : Str := str "<p>same content</p>"

/-- C4's crawl environment: two same-host URLs returning identical bodies. -/
def c4env : CrawlEnv :=
  { req := ⟨c2u0, 10, true⟩,
    settings := ⟨false, 1024⟩,
    httpFetch := fun _ => .ok c4body,
    browserFetch := fun _ => .fetchErr,
    linksOf := fun url _ => if url = c2u0 then [c2u1] else [],
    hasClient := true }

/-!
`src/api/src/ranking.rs`.  The `f32` scores are modelled as `ℚ`; the claim is
order-theoretic and uses only that adding a boost is monotone and that the
comparator is a total preorder (no `NaN` exists in the model).  Rust's
`Vec::sort_by` is stable, and for a total preorder every stable sort computes
the same list, here given by insertion sort (which inserts each element behind
no equal-scored element that preceded it). -/

structure RankingConfig where
  url_length_boost_factor : ℚ
  domain_root_boost : ℚ
  path_depth_penalty : ℚ
  exact_match_boost : ℚ

/-- `RankingConfig::default()`: 0.5, 0.05, 0.03, 3.0. -/
def RankingConfig.defaultConfig : RankingConfig := ⟨1/2, 1/20, 3/100, 3⟩

/-- `WebPageResult` of the shared crate: chunk data plus the search score. -/
@[ext]
structure WebPageResult where
  data : WebPageChunk
  score : ℚ
deriving DecidableEq

/-- `get_path_depth`: number of non-empty path segments (the `url` crate's
parse is modelled directly: no `://` is a parse error giving 0; query and
fragment are not part of the path). -/
def get_path_depth (url : Str) : Nat :=
  match findSub (str "://") url with
  | none => 0
  | some i =>
    (splitRuns (fun c => c = '/')
      (((url.drop (i + 3)).dropWhile (fun c => c ≠ '/')).takeWhile
        (fun c => decide (c ≠ '?' ∧ c ≠ '#')))).length

/-- `is_domain_root`: no meaningful path. -/
def is_domain_root (url : Str) : Bool := get_path_depth url = 0

/-- `apply_ranking_boost`, with the four sequential score updates of the
source. -/
def apply_ranking_boost (result : WebPageResult) (config : RankingConfig)
    (query : Str) : WebPageResult :=
  let url := result.data.source_url
  let title := result.data.page_title
  let url_len : ℚ := (max url.length 1 : Nat)
  let s1 := result.score + config.url_length_boost_factor / url_len
  let s2 := if is_domain_root url then s1 + config.domain_root_boost else s1
  let s3 :=
    if get_path_depth url > 0 then
      s2 - (get_path_depth url : ℚ) * config.path_depth_penalty
    else s2
  let s4 :=
    if ¬(lowerStr query).isEmpty ∧
        (containsSub (lowerStr query) (lowerStr url) ∨
          containsSub (lowerStr query) (lowerStr title)) then
      s3 + config.exact_match_boost
    else s3
  { result with score := s4 }

/-- The net score adjustment of `apply_ranking_boost`; it depends only on the
chunk data, the config and the query — never on the incoming score. -/
def rankBoost (data : WebPageChunk) (config : RankingConfig) (query : Str) : ℚ :=
  config.url_length_boost_factor / (max data.source_url.length 1 : Nat) +
    (if is_domain_root data.source_url then config.domain_root_boost else 0) -
    (if get_path_depth data.source_url > 0 then
      (get_path_depth data.source_url : ℚ) * config.path_depth_penalty
    else 0) +
    (if ¬(lowerStr query).isEmpty ∧
        (containsSub (lowerStr query) (lowerStr data.source_url) ∨
          containsSub (lowerStr query) (lowerStr data.page_title)) then
      config.exact_match_boost
    else 0)

/-- The descending comparator of `apply_ranking_boosts`
(`b.score.partial_cmp(&a.score)`, total on `ℚ`). -/
def rankLE (a b : WebPageResult) : Prop := b.score ≤ a.score

instance : DecidableRel rankLE :=
  fun a b => inferInstanceAs (Decidable (b.score ≤ a.score))

instance : IsTotal WebPageResult rankLE := ⟨fun a b => le_total b.score a.score⟩

instance : IsTrans WebPageResult rankLE := ⟨fun _ _ _ h1 h2 => le_trans h2 h1⟩

/-- `apply_ranking_boosts`: boost every result, then re-sort descending by
final score (stable sort). -/
def apply_ranking_boosts (results : List WebPageResult) (config : RankingConfig)
    (query : Str) : List WebPageResult :=
  List.insertionSort rankLE (results.map (fun r => apply_ranking_boost r config query))

/-- The same comparator on position-tagged results (tags never influence the
comparison). -/
def taggedLE (p q : Nat × WebPageResult) : Prop := q.2.score ≤ p.2.score

instance : DecidableRel taggedLE :=
  fun p q => inferInstanceAs (Decidable (q.2.score ≤ p.2.score))

instance : IsTotal (Nat × WebPageResult) taggedLE :=
  ⟨fun a b => le_total b.2.score a.2.score⟩

instance : IsTrans (Nat × WebPageResult) taggedLE :=
  ⟨fun _ _ _ h1 h2 => le_trans h2 h1⟩

/-- The boosted results tagged with their input positions, stably sorted by
the same descending comparator. -/
def rankedTagged (results : List WebPageResult) (config : RankingConfig)
    (query : Str) : List (Nat × WebPageResult) :=
  List.insertionSort taggedLE
    ((results.map (fun r => apply_ranking_boost r config query)).enum)

/-- The final rank (0 = best) of the result that entered at position `i`. -/
def finalRank (results : List WebPageResult) (config : RankingConfig) (query : Str)
    (i : Nat) : Nat :=
  (rankedTagged results config query).findIdx (fun p => p.1 == i)

/-- Strict precedence in the stably sorted output: strictly higher score, or
equal score and earlier input position. -/
def beats (p q : Nat × WebPageResult) : Prop :=
  q.2.score < p.2.score ∨ (p.2.score = q.2.score ∧ p.1 < q.1)

instance beatsDecidable (p q : Nat × WebPageResult) : Decidable (beats p q) :=
  inferInstanceAs (Decidable (_ ∨ _))

/-- Verification predicate: a chunk is within the (corrected) bound, or is the
trim of a single sentence from `allS` whose own estimate exceeds 700. -/
def sentOK (allS : List Str) (c : WebPageChunk) : Prop :=
  estimate_tokens c.chunk_content ≤ 931 ∨
    ∃ s ∈ allS, c.chunk_content = trimChars s ∧ 700 < estimate_tokens s

/-- Verification invariant of the sentence loop state. -/
def scInv (allS : List Str) (sc : Str) (stok : Nat) : Prop :=
  wordCount sc ≤ stok ∧ (sc = [] → stok = 0) ∧
    (sc = [] ∨ ∃ sc₀, sc = sc₀ ++ [' ']) ∧
    (stok ≤ 700 ∨
      ∃ s ∈ allS, sc = s ++ [' '] ∧ stok = estimate_tokens s ∧ 700 < estimate_tokens s)

/-- Verification invariant of the block-loop accumulator. -/
def accInv (acc : ChunkAcc) : Prop :=
  wordCount acc.curText ≤ acc.curTokens ∧ acc.curTokens < 300 ∧
    (acc.curText = [] → acc.curTokens = 0)

/-- Verification predicate: a chunk is within the (corrected) bound, or is the
trim of an oversized sentence of one of the given blocks. -/
def blockOK (blocks : List ContentBlock) (c : WebPageChunk) : Prop :=
  estimate_tokens c.chunk_content ≤ 931 ∨
    ∃ b ∈ blocks, 700 < estimate_tokens b.text ∧
      ∃ s ∈ split_into_sentences b.text, c.chunk_content = trimChars s ∧
        700 < estimate_tokens s

/-- Concrete ranking inputs: a chunk and two results used to exercise the
re-rank monotonicity property at a concrete point. -/
def c9chunk : WebPageChunk :=
  { chunk_content := str "c", chunk_heading := none,
    source_url := str "https://e.test", page_title := str "t",
    description := str "d", score := 0, crawled_at := 0 }

def c9r1 : WebPageResult := { data := c9chunk, score := 1 }

def c9r2 : WebPageResult := { data := c9chunk, score := 2 }

/-! ## Theorems -/

section StrLemmas

theorem splitRunsAux_append_sep {p : Char → Bool} {c : Char} (hc : p c) :
    ∀ (a : Str) (cur : Str) (b : Str),
      splitRunsAux p (a ++ c :: b) cur =
        splitRunsAux p a cur ++ splitRuns p b := by
  intro a
  induction a with
  | nil =>
    intro cur b
    by_cases h : cur.isEmpty <;>
      simp [splitRunsAux, splitRuns, hc, h]
  | cons x a ih =>
    intro cur b
    by_cases hx : p x
    · by_cases h : cur.isEmpty <;>
        simp [splitRunsAux, hx, h, ih]
    · simp [splitRunsAux, hx, ih]

/-- Words of `a ++ sep ++ b` are the words of `a` followed by the words of `b`,
for a separator character. -/
theorem splitRuns_append_sep {p : Char → Bool} {c : Char} (hc : p c) (a b : Str) :
    splitRuns p (a ++ c :: b) = splitRuns p a ++ splitRuns p b :=
  splitRunsAux_append_sep hc a [] b

/-- Word counts add across a single-space separator. -/
theorem wordCount_append_space (a b : Str) :
    wordCount (a ++ ' ' :: b) = wordCount a + wordCount b := by
  have h : isWhite ' ' = true := by decide
  simp [wordCount, splitWhitespace, splitRuns_append_sep h, List.length_append]

theorem splitRunsAux_trailing_sep {p : Char → Bool} {c : Char} (hc : p c) :
    ∀ (a : Str) (cur : Str),
      splitRunsAux p (a ++ [c]) cur = splitRunsAux p a cur := by
  intro a
  induction a with
  | nil =>
    intro cur
    by_cases h : cur.isEmpty <;>
      simp [splitRunsAux, hc, h]
  | cons x a ih =>
    intro cur
    by_cases hx : p x
    · by_cases h : cur.isEmpty <;>
        simp [splitRunsAux, hx, h, ih]
    · simp [splitRunsAux, hx, ih]

theorem splitRuns_leading_sep {p : Char → Bool} {c : Char} (hc : p c) (s : Str) :
    splitRuns p (c :: s) = splitRuns p s := by
  simp [splitRuns, splitRunsAux, hc]

theorem splitRuns_dropWhile (p : Char → Bool) (s : Str) :
    splitRuns p (s.dropWhile p) = splitRuns p s := by
  induction s with
  | nil => rfl
  | cons x s ih =>
    by_cases hx : p x
    · simpa [List.dropWhile_cons, hx, splitRuns_leading_sep hx] using ih
    · simp [List.dropWhile_cons, hx]

theorem splitRuns_dropWhile_reverse (p : Char → Bool) (r : Str) :
    splitRuns p (r.dropWhile p).reverse = splitRuns p r.reverse := by
  induction r with
  | nil => rfl
  | cons x r ih =>
    by_cases hx : p x
    · have : splitRuns p (r.reverse ++ [x]) = splitRuns p r.reverse :=
        splitRunsAux_trailing_sep hx r.reverse []
      simpa [List.dropWhile_cons, hx, this] using ih
    · simp [List.dropWhile_cons, hx]

/-- Trimming does not change the words of a string. -/
theorem splitWhitespace_trimChars (s : Str) :
    splitWhitespace (trimChars s) = splitWhitespace s := by
  unfold trimChars splitWhitespace
  have h1 := splitRuns_dropWhile_reverse isWhite (s.dropWhile isWhite).reverse
  rw [h1]
  rw [List.reverse_reverse]
  exact splitRuns_dropWhile isWhite s

theorem wordCount_trimChars (s : Str) : wordCount (trimChars s) = wordCount s := by
  simp [wordCount, splitWhitespace_trimChars]

end StrLemmas

section DedupLemmas

/-- Membership in the dedup seen-set after a sequence of calls. -/
theorem ContentDedup.mem_foldl_calls (cs : List Str) :
    ∀ (seen : List (List Nat)) (h : List Nat),
      h ∈ cs.foldl (fun s c => (ContentDedup.is_duplicate s c).2) seen ↔
        h ∈ seen ∨ ∃ b ∈ cs, ContentDedup.hash b = h := by
  induction cs with
  | nil => intro seen h; simp
  | cons c cs ih =>
    intro seen h
    rw [List.foldl_cons]
    by_cases hm : ContentDedup.hash c ∈ seen
    · have hstep : (ContentDedup.is_duplicate seen c).2 = seen := by
        simp [ContentDedup.is_duplicate, hm]
      rw [hstep, ih]
      constructor
      · rintro (hs | ⟨b, hb, hbh⟩)
        · exact Or.inl hs
        · exact Or.inr ⟨b, List.mem_cons_of_mem _ hb, hbh⟩
      · rintro (hs | ⟨b, hb, hbh⟩)
        · exact Or.inl hs
        · rcases List.mem_cons.mp hb with rfl | hb'
          · exact Or.inl (hbh ▸ hm)
          · exact Or.inr ⟨b, hb', hbh⟩
    · have hstep : (ContentDedup.is_duplicate seen c).2 = ContentDedup.hash c :: seen := by
        simp [ContentDedup.is_duplicate, hm]
      rw [hstep, ih]
      simp only [List.mem_cons]
      constructor
      · rintro ((hh | hs) | ⟨b, hb, hbh⟩)
        · exact Or.inr ⟨c, Or.inl rfl, hh.symm⟩
        · exact Or.inl hs
        · exact Or.inr ⟨b, Or.inr hb, hbh⟩
      · rintro (hs | ⟨b, hb, hbh⟩)
        · exact Or.inl (Or.inr hs)
        · rcases hb with rfl | hb'
          · exact Or.inl (Or.inl hbh.symm)
          · exact Or.inr ⟨b, hb', hbh⟩

theorem ContentDedup.mem_runCalls (cs : List Str) (h : List Nat) :
    h ∈ ContentDedup.runCalls cs ↔ ∃ b ∈ cs, ContentDedup.hash b = h := by
  rw [ContentDedup.runCalls, ContentDedup.mem_foldl_calls]
  simp

theorem ContentDedup.hash_congr {a b : Str}
    (h : ContentDedup.normalize a = ContentDedup.normalize b) :
    ContentDedup.hash a = ContentDedup.hash b := by
  unfold ContentDedup.hash
  rw [h]

theorem ContentDedup.runCalls_append_one (bs : List Str) (c : Str) :
    ContentDedup.runCalls (bs ++ [c]) =
      (ContentDedup.is_duplicate (ContentDedup.runCalls bs) c).2 := by
  unfold ContentDedup.runCalls
  rw [List.foldl_append, List.foldl_cons, List.foldl_nil]

end DedupLemmas

/-- C5: within a sequence of `ContentDedup::is_duplicate` calls (and absent
SHA-256 collisions between the contents involved, which is the `hinj`
hypothesis), a call returns `true` exactly when an earlier call had an argument
with the same normalization; a call returning `false` records the hash, so every
later call with an equal-normalized argument returns `true`. -/
theorem C5_is_duplicate_trace (bs : List Str) (c : Str)
    (hinj : ∀ x ∈ c :: bs, ∀ y ∈ c :: bs,
      ContentDedup.hash x = ContentDedup.hash y →
        ContentDedup.normalize x = ContentDedup.normalize y) :
    ((ContentDedup.is_duplicate (ContentDedup.runCalls bs) c).1 = true ↔
      ∃ b ∈ bs, ContentDedup.normalize b = ContentDedup.normalize c) ∧
    ((ContentDedup.is_duplicate (ContentDedup.runCalls bs) c).1 = false →
      ∀ c', ContentDedup.normalize c' = ContentDedup.normalize c →
        (ContentDedup.is_duplicate (ContentDedup.runCalls (bs ++ [c])) c').1 = true) := by
  have hfst : ∀ seen content, ((ContentDedup.is_duplicate seen content).1 = true ↔
      ContentDedup.hash content ∈ seen) := by
    intro seen content
    by_cases hm : ContentDedup.hash content ∈ seen <;>
      simp [ContentDedup.is_duplicate, hm]
  constructor
  · rw [hfst, ContentDedup.mem_runCalls]
    constructor
    · rintro ⟨b, hb, hbh⟩
      exact ⟨b, hb, hinj b (List.mem_cons_of_mem _ hb) c (List.mem_cons_self c bs) hbh⟩
    · rintro ⟨b, hb, hbn⟩
      exact ⟨b, hb, ContentDedup.hash_congr hbn⟩
  · intro hfalse c' hc'
    have hnot : ContentDedup.hash c ∉ ContentDedup.runCalls bs := by
      intro hmem
      have htrue := (hfst (ContentDedup.runCalls bs) c).mpr hmem
      rw [htrue] at hfalse
      exact Bool.noConfusion hfalse
    have hrun : ContentDedup.runCalls (bs ++ [c]) =
        ContentDedup.hash c :: ContentDedup.runCalls bs := by
      rw [ContentDedup.runCalls_append_one]
      simp [ContentDedup.is_duplicate, hnot]
    rw [hfst, hrun, ContentDedup.hash_congr hc']
    exact List.mem_cons_self _ _

set_option maxRecDepth 100000 in
/-- Witness for C5 at the trace `["a"]` followed by the query `"A"`. -/
theorem C5_is_duplicate_trace_witness :
    ((ContentDedup.is_duplicate (ContentDedup.runCalls [str "a"]) (str "A")).1 = true ↔
      ∃ b ∈ [str "a"], ContentDedup.normalize b = ContentDedup.normalize (str "A")) ∧
    ((ContentDedup.is_duplicate (ContentDedup.runCalls [str "a"]) (str "A")).1 = false →
      ∀ c', ContentDedup.normalize c' = ContentDedup.normalize (str "A") →
        (ContentDedup.is_duplicate
          (ContentDedup.runCalls ([str "a"] ++ [str "A"])) c').1 = true) :=
  C5_is_duplicate_trace [str "a"] (str "A") (by decide)

/-- C10: `WebPageChunk::from_weaviate_json` always returns `Some`, and each
absent or mistyped field falls back to its documented default: empty string for
`chunk_content` and `source_url`, `"No Title"` for `page_title`,
`"No description available"` for `description`, `0.0` for `score` and `0` for
`crawled_at`. -/
theorem C10_from_weaviate_json_total (v : Json) :
    ∃ c, WebPageChunk.from_weaviate_json v = some c ∧
      (((v.get (str "chunk_content")).bind Json.as_str) = none → c.chunk_content = []) ∧
      (((v.get (str "source_url")).bind Json.as_str) = none → c.source_url = []) ∧
      (((v.get (str "page_title")).bind Json.as_str) = none →
        c.page_title = str "No Title") ∧
      (((v.get (str "description")).bind Json.as_str) = none →
        c.description = str "No description available") ∧
      (((v.get (str "score")).bind Json.as_f64) = none → c.score = 0) ∧
      (((v.get (str "crawled_at")).bind Json.as_i64) = none → c.crawled_at = 0) := by
  refine ⟨_, rfl, ?_, ?_, ?_, ?_, ?_, ?_⟩ <;>
    intro h <;> simp [WebPageChunk.from_weaviate_json, h]

section LinkLemmas

theorem nil_isPrefixOf (t : Str) : ([] : Str).isPrefixOf t = true := by
  cases t <;> rfl

theorem isPrefixOf_of_take {pat : Str} :
    ∀ {t : Str} {m : Nat}, pat.isPrefixOf (t.take m) = true → pat.isPrefixOf t = true := by
  induction pat with
  | nil => intro t m _; exact nil_isPrefixOf t
  | cons p ps ih =>
    intro t m h
    cases t with
    | nil => cases m <;> simpa [List.isPrefixOf] using h
    | cons b bs =>
      cases m with
      | zero => simp [List.isPrefixOf] at h
      | succ m =>
        simp only [List.take_succ_cons, List.isPrefixOf, Bool.and_eq_true] at h ⊢
        exact ⟨h.1, ih h.2⟩

theorem containsSub_of_drop {pat s : Str} (k : Nat)
    (h : containsSub pat (s.drop k) = true) : containsSub pat s = true := by
  unfold containsSub at h ⊢
  rw [List.any_eq_true] at h ⊢
  obtain ⟨i, hi, hpref⟩ := h
  rw [List.drop_drop] at hpref
  by_cases hle : k + i ≤ s.length
  · exact ⟨k + i, List.mem_range.mpr (by omega), hpref⟩
  · have hnil : s.drop (k + i) = [] := List.drop_eq_nil_of_le (by omega)
    rw [hnil] at hpref
    have hp : pat = [] := by
      cases pat with
      | nil => rfl
      | cons p ps => simp [List.isPrefixOf] at hpref
    subst hp
    exact ⟨0, List.mem_range.mpr (by omega), nil_isPrefixOf _⟩

theorem containsSub_of_take {pat s : Str} (m : Nat)
    (h : containsSub pat (s.take m) = true) : containsSub pat s = true := by
  unfold containsSub at h ⊢
  rw [List.any_eq_true] at h ⊢
  obtain ⟨i, hi, hpref⟩ := h
  have him : i ≤ m := by
    have := List.mem_range.mp hi
    have hlen : (s.take m).length ≤ m := by
      simp [List.length_take]
    omega
  have hcomm : (s.take m).drop i = (s.drop i).take (m - i) := by
    have h1 := List.take_drop i (m - i) s
    rw [show i + (m - i) = m by omega] at h1
    exact h1.symm
  rw [hcomm] at hpref
  have hilen : i ≤ s.length := by
    have hr := List.mem_range.mp hi
    have h2 : i ≤ (s.take m).length := by omega
    simp only [List.length_take] at h2
    omega
  exact ⟨i, List.mem_range.mpr (by omega), isPrefixOf_of_take hpref⟩

theorem containsSub_of_dropLast {pat s : Str}
    (h : containsSub pat s.dropLast = true) : containsSub pat s = true := by
  rw [List.dropLast_eq_take] at h
  exact containsSub_of_take _ h

theorem containsSub_stripScheme {pat u : Str}
    (h : containsSub pat (stripScheme u) = true) : containsSub pat u = true := by
  unfold stripScheme at h
  split_ifs at h with h1 h2
  · exact containsSub_of_drop 7 h
  · exact containsSub_of_drop 8 h
  · exact h

theorem containsSub_stripWww {pat u : Str}
    (h : containsSub pat (stripWww u) = true) : containsSub pat u = true := by
  unfold stripWww at h
  split_ifs at h with h1
  · exact containsSub_of_drop 4 h
  · exact h

theorem containsSub_stripSlash {pat u : Str}
    (h : containsSub pat (stripSlash u) = true) : containsSub pat u = true := by
  unfold stripSlash at h
  split_ifs at h with h1
  · exact containsSub_of_dropLast h
  · exact h

theorem containsSub_stripLink {pat u : Str} (h : containsSub pat u = false) :
    containsSub pat (stripLink u) = false := by
  by_contra hc
  rw [Bool.not_eq_false] at hc
  have := containsSub_stripScheme (containsSub_stripWww (containsSub_stripSlash hc))
  rw [h] at this
  exact Bool.noConfusion this

theorem stripScheme_sublist (u : Str) : List.Sublist (stripScheme u) u := by
  unfold stripScheme
  split_ifs
  · exact List.drop_sublist 7 u
  · exact List.drop_sublist 8 u
  · exact List.Sublist.refl u

theorem stripWww_sublist (u : Str) : List.Sublist (stripWww u) u := by
  unfold stripWww
  split_ifs
  · exact List.drop_sublist 4 u
  · exact List.Sublist.refl u

theorem stripSlash_sublist (u : Str) : List.Sublist (stripSlash u) u := by
  unfold stripSlash
  split_ifs
  · exact List.dropLast_sublist u
  · exact List.Sublist.refl u

theorem stripLink_sublist (u : Str) : List.Sublist (stripLink u) u :=
  ((stripSlash_sublist _).trans (stripWww_sublist _)).trans (stripScheme_sublist u)

/-- What `anchorLink` guarantees about a link it lets through. -/
theorem anchorLink_props {joinUrl : Str → Option Str} {a : Anchor} {u : Str}
    (h : anchorLink joinUrl a = some u) :
    ((str "http://").isPrefixOf u = true ∨ (str "https://").isPrefixOf u = true) ∧
      '#' ∉ u ∧ containsSub (str "undefined") u = false := by
  unfold anchorLink at h
  split at h
  · exact absurd h (by simp)
  split at h
  · exact absurd h (by simp)
  split at h
  · exact absurd h (by simp)
  rcases hj : joinUrl (trimChars a.href) with _ | u'
  · rw [hj] at h; exact absurd h (by simp)
  · rw [hj] at h
    change (if keepResolved u' then some u' else none) = some u at h
    by_cases hk : keepResolved u' = true
    · rw [if_pos hk] at h
      have hu : u' = u := by simpa using h
      subst hu
      unfold keepResolved at hk
      simp only [Bool.and_eq_true, Bool.or_eq_true, Bool.not_eq_true'] at hk
      obtain ⟨⟨hor, hhash⟩, hundef⟩ := hk
      refine ⟨hor, ?_, hundef⟩
      simpa using hhash
    · rw [if_neg hk] at h
      exact absurd h (by simp)

theorem cmpStrLE_total : ∀ a b : Str, cmpStrLE a b = true ∨ cmpStrLE b a = true
  | [], _ => Or.inl rfl
  | _ :: _, [] => Or.inr rfl
  | a :: as, b :: bs => by
    by_cases h1 : a < b
    · left; simp [cmpStrLE, h1]
    · by_cases h2 : b < a
      · right; simp [cmpStrLE, h2]
      · rcases cmpStrLE_total as bs with h | h
        · left; simp [cmpStrLE, h1, h2, h]
        · right; simp [cmpStrLE, h1, h2, h]

theorem cmpStrLE_trans :
    ∀ a b c : Str, cmpStrLE a b = true → cmpStrLE b c = true → cmpStrLE a c = true
  | [], _, _ => by intro _ _; rfl
  | _ :: _, [], _ => by intro h _; simp [cmpStrLE] at h
  | _ :: _, _ :: _, [] => by intro _ h; simp [cmpStrLE] at h
  | a :: as, b :: bs, c :: cs => by
    intro h1 h2
    simp only [cmpStrLE] at h1 h2 ⊢
    by_cases hab : a < b
    · by_cases hbc : b < c
      · simp [lt_trans hab hbc]
      · by_cases hcb : c < b
        · simp [hbc, hcb] at h2
        · have hbceq : b = c := le_antisymm (not_lt.mp hcb) (not_lt.mp hbc)
          subst hbceq
          simp [hab]
    · by_cases hba : b < a
      · simp [hab, hba] at h1
      · have habeq : a = b := le_antisymm (not_lt.mp hba) (not_lt.mp hab)
        subst habeq
        simp only [lt_irrefl, if_false] at h1
        by_cases hac : a < c
        · simp [hac]
        · by_cases hca : c < a
          · simp [hac, hca] at h2
          · have haceq : a = c := le_antisymm (not_lt.mp hca) (not_lt.mp hac)
            subst haceq
            simp only [lt_irrefl, if_false] at h2 ⊢
            exact cmpStrLE_trans as bs cs h1 h2

theorem cmpStrLE_antisymm :
    ∀ a b : Str, cmpStrLE a b = true → cmpStrLE b a = true → a = b
  | [], [] => by intro _ _; rfl
  | [], _ :: _ => by intro _ h; simp [cmpStrLE] at h
  | _ :: _, [] => by intro h _; simp [cmpStrLE] at h
  | a :: as, b :: bs => by
    intro h1 h2
    simp only [cmpStrLE] at h1 h2
    by_cases hab : a < b
    · simp [hab, lt_asymm hab] at h2
    · by_cases hba : b < a
      · simp [hab, hba] at h1
      · have habeq : a = b := le_antisymm (not_lt.mp hba) (not_lt.mp hab)
        subst habeq
        simp only [lt_irrefl, if_neg, if_false] at h1 h2
        rw [cmpStrLE_antisymm as bs (by simpa using h1) (by simpa using h2)]

theorem sorted_sortLinks (l : List Str) :
    (sortLinks l).Pairwise (fun a b => cmpStrLE a b = true) := by
  haveI ht : IsTotal Str (fun a b => cmpStrLE a b = true) := ⟨cmpStrLE_total⟩
  haveI htr : IsTrans Str (fun a b => cmpStrLE a b = true) := ⟨cmpStrLE_trans⟩
  exact List.sorted_insertionSort _ l

theorem chain'_strict_of_pairwise_chain' {l : List Str}
    (h1 : l.Pairwise (fun a b => cmpStrLE a b = true)) (h2 : l.Chain' (· ≠ ·)) :
    l.Chain' (fun a b => cmpStrLE a b = true ∧ a ≠ b) := by
  induction l with
  | nil => simp
  | cons a l ih =>
    cases l with
    | nil => simp
    | cons b l' =>
      rw [List.chain'_cons] at h2 ⊢
      refine ⟨⟨(List.pairwise_cons.mp h1).1 b (List.mem_cons_self b l'), h2.1⟩, ?_⟩
      exact ih (List.pairwise_cons.mp h1).2 h2.2

theorem nodup_dedupAdjacent_sortLinks (l : List Str) :
    (dedupAdjacent (sortLinks l)).Nodup := by
  have hsor := sorted_sortLinks l
  have hsub : List.Sublist (dedupAdjacent (sortLinks l)) (sortLinks l) :=
    List.destutter_sublist _ _
  have hsor2 : (dedupAdjacent (sortLinks l)).Pairwise (fun a b => cmpStrLE a b = true) :=
    hsor.sublist hsub
  have hch : (dedupAdjacent (sortLinks l)).Chain' (· ≠ ·) :=
    List.destutter_is_chain' _ _
  have hstr := chain'_strict_of_pairwise_chain' hsor2 hch
  haveI : IsTrans Str (fun a b => cmpStrLE a b = true ∧ a ≠ b) := by
    refine ⟨fun a b c hab hbc => ⟨cmpStrLE_trans a b c hab.1 hbc.1, ?_⟩⟩
    intro hac
    subst hac
    exact hab.2 (cmpStrLE_antisymm a b hab.1 hbc.1)
  have hpw := List.chain'_iff_pairwise.mp hstr
  exact hpw.imp (fun h => h.2)

end LinkLemmas

/-- C6 (amended): every string returned by `extract_links` comes from a resolved
absolute URL that begins with `http://` or `https://`, from which the function
then strips the scheme, a leading `www.` and a trailing slash — so the returned
strings themselves do not begin with a scheme; each returned string still
contains no `'#'` and not the literal `undefined`, and the returned list has no
duplicates. -/
theorem C6_extract_links_amended (joinUrl : Str → Option Str) (anchors : List Anchor) :
    (extract_links joinUrl anchors).Nodup ∧
    ∀ s ∈ extract_links joinUrl anchors,
      '#' ∉ s ∧ containsSub (str "undefined") s = false ∧
      ∃ a ∈ anchors, ∃ u, anchorLink joinUrl a = some u ∧
        ((str "http://").isPrefixOf u = true ∨ (str "https://").isPrefixOf u = true) ∧
        s = stripLink u := by
  constructor
  · exact nodup_dedupAdjacent_sortLinks _
  · intro s hs
    have hs1 : s ∈ sortLinks ((anchors.filterMap (anchorLink joinUrl)).map stripLink) :=
      (List.destutter_sublist _ _).subset hs
    have hs2 : s ∈ (anchors.filterMap (anchorLink joinUrl)).map stripLink :=
      (List.perm_insertionSort _ _).mem_iff.mp hs1
    obtain ⟨u, hu, rfl⟩ := List.mem_map.mp hs2
    obtain ⟨a, ha, hau⟩ := List.mem_filterMap.mp hu
    have hprops := anchorLink_props hau
    refine ⟨?_, containsSub_stripLink hprops.2.2, a, ha, u, hau, hprops.1, rfl⟩
    intro hmem
    exact hprops.2.1 ((stripLink_sublist u).subset hmem)

/-- Witness for C6 (amended) at a concrete join oracle and anchor list. -/
theorem C6_extract_links_amended_witness :
    (extract_links some [⟨none, false, str "https://www.example.com/page"⟩]).Nodup ∧
    ∀ s ∈ extract_links some [⟨none, false, str "https://www.example.com/page"⟩],
      '#' ∉ s ∧ containsSub (str "undefined") s = false ∧
      ∃ a ∈ [(⟨none, false, str "https://www.example.com/page"⟩ : Anchor)], ∃ u,
        anchorLink some a = some u ∧
        ((str "http://").isPrefixOf u = true ∨ (str "https://").isPrefixOf u = true) ∧
        s = stripLink u :=
  C6_extract_links_amended some _

/-- C6 counterexample: the claim says returned links begin with `http://` or
`https://`, but `extract_links` strips the scheme before returning. -/
theorem C6_extract_links_counterexample :
    extract_links some [⟨none, false, str "https://example.com/page"⟩] =
      [str "example.com/page"] ∧
    (str "http://").isPrefixOf (str "example.com/page") = false ∧
    (str "https://").isPrefixOf (str "example.com/page") = false := by
  decide

section ChunkLemmas

theorem wordCount_append_space_right (x : Str) :
    wordCount (x ++ [' ']) = wordCount x := by
  have h : isWhite ' ' = true := by decide
  unfold wordCount splitWhitespace splitRuns
  rw [splitRunsAux_trailing_sep h x []]

theorem wordCount_le_estimate (s : Str) : wordCount s ≤ estimate_tokens s := by
  unfold estimate_tokens
  have h1 : wordCount s = wordCount s * 100 / 100 := by omega
  rw [h1]
  exact Nat.div_le_div_right (by omega)

theorem estimate_le_931 {s : Str} (h : wordCount s ≤ 700) :
    estimate_tokens s ≤ 931 := by
  unfold estimate_tokens
  calc wordCount s * 133 / 100 ≤ 700 * 133 / 100 :=
        Nat.div_le_div_right (by omega)
    _ = 931 := by norm_num

theorem trimChars_append_space (x : Str) : trimChars (x ++ [' ']) = trimChars x := by
  have hw : isWhite ' ' = true := by decide
  unfold trimChars
  rw [List.dropWhile_append]
  by_cases hx : (x.dropWhile isWhite).isEmpty
  · have hx' : x.dropWhile isWhite = [] := by simpa [List.isEmpty_iff] using hx
    simp [hx, hx', List.dropWhile_cons, hw]
  · rw [if_neg (by simpa using hx)]
    rw [List.reverse_append]
    simp [List.dropWhile_cons, hw]

theorem emit_sentOK {allS : List Str} {sc : Str} {stok : Nat}
    (h : scInv allS sc stok) (heading : Option Str) (url title desc : Str) (t : Int) :
    sentOK allS (mkChunk (trimChars sc) heading url title desc t) := by
  obtain ⟨hwc, _, _, hcase⟩ := h
  rcases hcase with hle | ⟨s, hs, hsc, hstok, hbig⟩
  · left
    show estimate_tokens (trimChars sc) ≤ 931
    have hw : wordCount (trimChars sc) ≤ 700 := by
      rw [wordCount_trimChars]; omega
    exact estimate_le_931 hw
  · right
    refine ⟨s, hs, ?_, hbig⟩
    show trimChars sc = trimChars s
    rw [hsc, trimChars_append_space]

theorem sentenceLoop_spec (heading : Option Str) (url title desc : Str) (t : Int)
    (allS : List Str) :
    ∀ (ss : List Str) (sc : Str) (stok : Nat) (chunks : List WebPageChunk),
      (∀ s ∈ ss, s ∈ allS) → scInv allS sc stok →
      (∀ c ∈ (sentenceLoop heading url title desc t ss sc stok chunks).1,
          c ∈ chunks ∨ sentOK allS c) ∧
        scInv allS (sentenceLoop heading url title desc t ss sc stok chunks).2.1
          (sentenceLoop heading url title desc t ss sc stok chunks).2.2 := by
  intro ss
  induction ss with
  | nil =>
    intro sc stok chunks _ hinv
    exact ⟨fun c hc => Or.inl hc, hinv⟩
  | cons s rest ih =>
    intro sc stok chunks hss hinv
    have hsmem : s ∈ allS := hss s (List.mem_cons_self s rest)
    have hss' : ∀ x ∈ rest, x ∈ allS := fun x hx => hss x (List.mem_cons_of_mem _ hx)
    rw [sentenceLoop]
    by_cases hcond : stok + estimate_tokens s > 700 ∧ sc ≠ []
    · rw [if_pos hcond]
      have hinv' : scInv allS (s ++ [' ']) (estimate_tokens s) := by
        refine ⟨by rw [wordCount_append_space_right]; exact wordCount_le_estimate s,
          by simp, Or.inr ⟨s, rfl⟩, ?_⟩
        by_cases hbig : estimate_tokens s ≤ 700
        · exact Or.inl hbig
        · exact Or.inr ⟨s, hsmem, rfl, rfl, by omega⟩
      obtain ⟨hmem, hfin⟩ := ih (s ++ [' ']) (estimate_tokens s)
        (chunks ++ [mkChunk (trimChars sc) heading url title desc t]) hss' hinv'
      refine ⟨?_, hfin⟩
      intro c hc
      rcases hmem c hc with hcc | hok
      · rcases List.mem_append.mp hcc with hcc' | hcc'
        · exact Or.inl hcc'
        · have : c = mkChunk (trimChars sc) heading url title desc t := by
            simpa using hcc'
          rw [this]
          exact Or.inr (emit_sentOK hinv heading url title desc t)
      · exact Or.inr hok
    · rw [if_neg hcond]
      have hnew : scInv allS (sc ++ s ++ [' ']) (stok + estimate_tokens s) := by
        obtain ⟨hwc, hemp, hsp, hcase⟩ := hinv
        rcases Decidable.not_and_iff_or_not.mp hcond with hle | hne
        · have hle' : stok + estimate_tokens s ≤ 700 := by omega
          refine ⟨?_, by simp, Or.inr ⟨sc ++ s, by rw [List.append_assoc]⟩, Or.inl hle'⟩
          rcases hsp with rfl | ⟨sc₀, rfl⟩
          · simpa [wordCount_append_space_right] using
              le_trans (wordCount_le_estimate s) (by omega)
          · have h1 : wordCount ((sc₀ ++ [' ']) ++ s ++ [' ']) =
                wordCount (sc₀ ++ [' ']) + wordCount s := by
              rw [wordCount_append_space_right, List.append_assoc,
                List.singleton_append, wordCount_append_space,
                wordCount_append_space_right]
            rw [h1]
            exact Nat.add_le_add hwc (wordCount_le_estimate s)
        · have hsc : sc = [] := by
            by_contra hx
            exact hne hx
          subst hsc
          have hstok : stok = 0 := hemp rfl
          subst hstok
          simp only [List.nil_append, Nat.zero_add]
          refine ⟨by rw [wordCount_append_space_right]; exact wordCount_le_estimate s,
            by simp, Or.inr ⟨s, rfl⟩, ?_⟩
          by_cases hbig : estimate_tokens s ≤ 700
          · exact Or.inl hbig
          · exact Or.inr ⟨s, hsmem, rfl, rfl, by omega⟩
      exact ih (sc ++ s ++ [' ']) (stok + estimate_tokens s) chunks hss' hnew

end ChunkLemmas

section BlockLemmas

theorem wordCount_nil : wordCount ([] : Str) = 0 := rfl

theorem estimate_tokens_nil : estimate_tokens ([] : Str) = 0 := rfl

theorem wordCount_appendText (a b : Str) :
    wordCount (appendText a b) = wordCount a + wordCount b := by
  unfold appendText
  by_cases h : a.isEmpty
  · have ha : a = [] := by simpa [List.isEmpty_iff] using h
    simp [h, ha, wordCount_nil]
  · rw [if_neg h, wordCount_append_space]

theorem appendText_eq_nil {a b : Str} (h : appendText a b = []) :
    a = [] ∧ b = [] := by
  unfold appendText at h
  by_cases ha : a.isEmpty
  · exact ⟨by simpa [List.isEmpty_iff] using ha, by rwa [if_pos ha] at h⟩
  · rw [if_neg ha] at h
    exact absurd h (by simp)

theorem accInv_flushCur {acc : ChunkAcc} (url title desc : Str) (t : Int) :
    accInv (flushCur url title desc t acc) :=
  ⟨by simp [flushCur, wordCount_nil], by simp [flushCur], fun _ => rfl⟩

theorem flushCur_chunks {acc : ChunkAcc} (hin : accInv acc)
    (url title desc : Str) (t : Int) :
    ∀ c ∈ (flushCur url title desc t acc).chunks,
      c ∈ acc.chunks ∨ estimate_tokens c.chunk_content ≤ 931 := by
  intro c hc
  rcases List.mem_append.mp hc with hcc | hcc
  · exact Or.inl hcc
  · have hc' : c = mkChunk (trimChars acc.curText) acc.curHeading url title desc t := by
      simpa using hcc
    right
    rw [hc']
    show estimate_tokens (trimChars acc.curText) ≤ 931
    refine estimate_le_931 ?_
    rw [wordCount_trimChars]
    have := hin.1
    have := hin.2.1
    omega

theorem processBlock_spec (url title desc : Str) (t : Int) (block : ContentBlock)
    (acc : ChunkAcc) (hin : accInv acc) :
    accInv (processBlock url title desc t acc block) ∧
    ∀ c ∈ (processBlock url title desc t acc block).chunks,
      c ∈ acc.chunks ∨ estimate_tokens c.chunk_content ≤ 931 ∨
        (700 < estimate_tokens block.text ∧
          ∃ s ∈ split_into_sentences block.text,
            c.chunk_content = trimChars s ∧ 700 < estimate_tokens s) := by
  unfold processBlock
  by_cases hbt : estimate_tokens block.text > 700
  · rw [if_pos hbt]
    have hstep : ∀ acc1 : ChunkAcc, accInv acc1 →
        (∀ c ∈ acc1.chunks, c ∈ acc.chunks ∨ estimate_tokens c.chunk_content ≤ 931) →
        accInv (bigBlockStep url title desc t acc1 block) ∧
        ∀ c ∈ (bigBlockStep url title desc t acc1 block).chunks,
          c ∈ acc.chunks ∨ estimate_tokens c.chunk_content ≤ 931 ∨
            (700 < estimate_tokens block.text ∧
              ∃ s ∈ split_into_sentences block.text,
                c.chunk_content = trimChars s ∧ 700 < estimate_tokens s) := by
      intro acc1 h1 h2
      have hinit : scInv (split_into_sentences block.text) [] 0 :=
        ⟨le_refl 0, fun _ => rfl, Or.inl rfl, Or.inl (by norm_num)⟩
      obtain ⟨hmem, hfin⟩ := sentenceLoop_spec block.heading url title desc t
        (split_into_sentences block.text) (split_into_sentences block.text)
        [] 0 acc1.chunks (fun _ hs => hs) hinit
      have hsent : ∀ c, sentOK (split_into_sentences block.text) c →
          estimate_tokens c.chunk_content ≤ 931 ∨
            (700 < estimate_tokens block.text ∧
              ∃ s ∈ split_into_sentences block.text,
                c.chunk_content = trimChars s ∧ 700 < estimate_tokens s) := by
        intro c hc
        rcases hc with hle | ⟨s, hs, heq, hbig⟩
        · exact Or.inl hle
        · exact Or.inr ⟨hbt, s, hs, heq, hbig⟩
      constructor
      · exact ⟨h1.1, h1.2.1, h1.2.2⟩
      · intro c hc
        unfold bigBlockStep at hc
        dsimp only at hc
        split at hc
        · rcases List.mem_append.mp hc with hcc | hcc
          · rcases hmem c hcc with hcc' | hok
            · exact (h2 c hcc').imp id Or.inl
            · exact Or.inr (hsent c hok)
          · have hc' : c = mkChunk
                (trimChars (sentenceLoop block.heading url title desc t
                  (split_into_sentences block.text) [] 0 acc1.chunks).2.1)
                block.heading url title desc t := by simpa using hcc
            rw [hc']
            exact Or.inr (hsent _ (emit_sentOK hfin block.heading url title desc t))
        · rcases hmem c hc with hcc' | hok
          · exact (h2 c hcc').imp id Or.inl
          · exact Or.inr (hsent c hok)
    by_cases hne : acc.curText ≠ []
    · rw [if_pos hne]
      exact hstep _ (accInv_flushCur url title desc t) (flushCur_chunks hin url title desc t)
    · rw [if_neg hne]
      exact hstep acc hin (fun c hc => Or.inl hc)
  · rw [if_neg hbt]
    have hstep : ∀ acc1 : ChunkAcc, accInv acc1 →
        acc1.curTokens + estimate_tokens block.text ≤ 700 →
        (∀ c ∈ acc1.chunks, c ∈ acc.chunks ∨ estimate_tokens c.chunk_content ≤ 931) →
        accInv (smallBlockStep url title desc t acc1 block) ∧
        ∀ c ∈ (smallBlockStep url title desc t acc1 block).chunks,
          c ∈ acc.chunks ∨ estimate_tokens c.chunk_content ≤ 931 ∨
            (700 < estimate_tokens block.text ∧
              ∃ s ∈ split_into_sentences block.text,
                c.chunk_content = trimChars s ∧ 700 < estimate_tokens s) := by
      intro acc1 h1 htok h2
      have hwords : wordCount (appendText acc1.curText block.text) ≤
          acc1.curTokens + estimate_tokens block.text := by
        rw [wordCount_appendText]
        exact Nat.add_le_add h1.1 (wordCount_le_estimate block.text)
      unfold smallBlockStep
      by_cases hmin : acc1.curTokens + estimate_tokens block.text ≥ 300
      · rw [if_pos hmin]
        refine ⟨⟨by simp [wordCount_nil], by norm_num, fun _ => rfl⟩, ?_⟩
        intro c hc
        rcases List.mem_append.mp hc with hcc | hcc
        · exact (h2 c hcc).imp id Or.inl
        · have hc' : c = mkChunk (trimChars (appendText acc1.curText block.text))
              (newHeading acc1 block) url title desc t := by simpa using hcc
          right; left
          rw [hc']
          show estimate_tokens (trimChars (appendText acc1.curText block.text)) ≤ 931
          refine estimate_le_931 ?_
          rw [wordCount_trimChars]
          omega
      · rw [if_neg hmin]
        refine ⟨⟨hwords, ?_, ?_⟩, fun c hc => (h2 c hc).imp id Or.inl⟩
        · show acc1.curTokens + estimate_tokens block.text < 300
          omega
        · intro hemp
          obtain ⟨ha, hb⟩ := appendText_eq_nil hemp
          have h0 : acc1.curTokens = 0 := h1.2.2 ha
          show acc1.curTokens + estimate_tokens block.text = 0
          rw [h0, hb, estimate_tokens_nil]
    by_cases hover : acc.curTokens + estimate_tokens block.text > 700
    · rw [if_pos hover]
      by_cases hguard : acc.curText ≠ [] ∧ acc.curTokens > 0
      · rw [if_pos hguard]
        refine hstep _ (accInv_flushCur url title desc t) ?_
          (flushCur_chunks hin url title desc t)
        show (0 : Nat) + estimate_tokens block.text ≤ 700
        omega
      · rw [if_neg hguard]
        have h0 : acc.curTokens = 0 := by
          rcases Decidable.not_and_iff_or_not.mp hguard with h | h
          · exact hin.2.2 (by simpa using h)
          · omega
        exact hstep acc hin (by omega) (fun c hc => Or.inl hc)
    · rw [if_neg hover]
      exact hstep acc hin (by omega) (fun c hc => Or.inl hc)

theorem foldl_processBlock_spec (url title desc : Str) (t : Int) :
    ∀ (blocks : List ContentBlock) (acc : ChunkAcc), accInv acc →
      accInv (blocks.foldl (processBlock url title desc t) acc) ∧
      ∀ c ∈ (blocks.foldl (processBlock url title desc t) acc).chunks,
        c ∈ acc.chunks ∨ blockOK blocks c := by
  intro blocks
  induction blocks with
  | nil => intro acc h; exact ⟨h, fun c hc => Or.inl hc⟩
  | cons b bs ih =>
    intro acc h
    rw [List.foldl_cons]
    obtain ⟨h1, h2⟩ := processBlock_spec url title desc t b acc h
    obtain ⟨h3, h4⟩ := ih _ h1
    refine ⟨h3, fun c hc => ?_⟩
    rcases h4 c hc with hcc | hok
    · rcases h2 c hcc with hcc' | hle | hbig
      · exact Or.inl hcc'
      · exact Or.inr (Or.inl hle)
      · exact Or.inr (Or.inr ⟨b, List.mem_cons_self b bs, hbig.1, hbig.2⟩)
    · rcases hok with hle | ⟨b', hb', hrest⟩
      · exact Or.inr (Or.inl hle)
      · exact Or.inr (Or.inr ⟨b', List.mem_cons_of_mem _ hb', hrest⟩)

end BlockLemmas

/-- C7 (amended): every chunk emitted by `create_chunks` has token estimate at
most `⌊700·1.33⌋ = 931` — the code caps at 700 the *sum of the per-piece
estimates* accumulated into a chunk, and the estimate of the joined text can
exceed that sum, up to the factor 1.33 — except a chunk that is the trim of a
single sentence (from an oversized block) whose own estimate exceeds 700. -/
theorem C7_create_chunks_amended (blocks : List ContentBlock) (url title desc : Str)
    (t : Int) :
    ∀ c ∈ create_chunks blocks url title desc t,
      estimate_tokens c.chunk_content ≤ 931 ∨
      ∃ b ∈ blocks, 700 < estimate_tokens b.text ∧
        ∃ s ∈ split_into_sentences b.text, c.chunk_content = trimChars s ∧
          700 < estimate_tokens s := by
  intro c hc
  have hinit : accInv ⟨[], [], none, 0⟩ := ⟨le_refl 0, by norm_num, fun _ => rfl⟩
  obtain ⟨hA, hB⟩ := foldl_processBlock_spec url title desc t blocks ⟨[], [], none, 0⟩ hinit
  unfold create_chunks at hc
  dsimp only at hc
  split at hc
  · rcases List.mem_append.mp hc with hcc | hcc
    · rcases hB c hcc with hnil | hok
      · simp at hnil
      · exact hok
    · have hc' : c = mkChunk
          (trimChars (blocks.foldl (processBlock url title desc t) ⟨[], [], none, 0⟩).curText)
          (blocks.foldl (processBlock url title desc t) ⟨[], [], none, 0⟩).curHeading
          url title desc t := by simpa using hcc
      left
      rw [hc']
      show estimate_tokens (trimChars _) ≤ 931
      refine estimate_le_931 ?_
      rw [wordCount_trimChars]
      have := hA.1
      have := hA.2.1
      omega
  · rcases hB c hc with hnil | hok
    · simp at hnil
    · exact hok

/-- Witness for C7 (amended) at a one-block input. -/
theorem C7_create_chunks_amended_witness :
    estimate_tokens (mkChunk (str "hello") none (str "u") (str "ti") (str "de")
      0).chunk_content ≤ 931 ∨
    ∃ b ∈ [(⟨none, str "hello"⟩ : ContentBlock)], 700 < estimate_tokens b.text ∧
      ∃ s ∈ split_into_sentences b.text,
        (mkChunk (str "hello") none (str "u") (str "ti") (str "de")
          0).chunk_content = trimChars s ∧ 700 < estimate_tokens s :=
  C7_create_chunks_amended [⟨none, str "hello"⟩] (str "u") (str "ti") (str "de") 0
    (mkChunk (str "hello") none (str "u") (str "ti") (str "de") 0) (by decide)

set_option maxRecDepth 40000 in
/-- C7 counterexample: on `cexBlocks` the accumulation path emits a single chunk
whose own token estimate is 798 > 700, while no block of the input has estimate
above 700 — so the single-sentence exception cannot excuse it. -/
theorem C7_create_chunks_counterexample :
    (create_chunks cexBlocks [] [] [] 0).length = 1 ∧
    (∀ c ∈ create_chunks cexBlocks [] [] [] 0,
      c.chunk_content ≠ [] ∧ 700 < estimate_tokens c.chunk_content) ∧
    ∀ b ∈ cexBlocks, estimate_tokens b.text ≤ 700 := by
  decide

/-- C8: `extract_webpage_data` always returns at least one chunk, and when the
chunker returns nothing it returns exactly one chunk with empty content carrying
the page's url, title and description. -/
theorem C8_extract_webpage_data_nonempty (url title desc : Str)
    (blocks : List ContentBlock) (t : Int) :
    1 ≤ (extract_webpage_data url title desc blocks t).length ∧
    (create_chunks blocks url title desc t = [] →
      extract_webpage_data url title desc blocks t =
        [mkChunk [] none url title desc t]) ∧
    (mkChunk [] none url title desc t).chunk_content = [] ∧
    (mkChunk [] none url title desc t).source_url = url ∧
    (mkChunk [] none url title desc t).page_title = title ∧
    (mkChunk [] none url title desc t).description = desc := by
  unfold extract_webpage_data
  by_cases h : (create_chunks blocks url title desc t).isEmpty
  · rw [if_pos h]
    exact ⟨by norm_num, fun _ => rfl, rfl, rfl, rfl, rfl⟩
  · rw [if_neg h]
    refine ⟨?_, ?_, rfl, rfl, rfl, rfl⟩
    · have hne : create_chunks blocks url title desc t ≠ [] := by
        simpa [List.isEmpty_iff] using h
      have := List.length_pos.mpr hne
      omega
    · intro h'
      rw [h'] at h
      simp at h

/-- C1 is a code bug: `robots.rs` exists "to ensure the crawler respects
website crawling policies" and `is_allowed` returns `false` for
`https://c.test/private/doc` under a robots.txt disallowing `/private/`, yet
`CrawlRunner::start` never consults the robots cache — the HTTP fetcher is
invoked for the disallowed URL anyway. -/
theorem C1_robots_never_consulted :
    robots_is_allowed c1robots c1url = false ∧
    CrawlEvent.fetchHttp (normalize_url c1url) ∈ (crawlRun c1env 5).trace := by
  decide

/-- C2 is a code bug: the frontier of `CrawlRunner::start` holds bare URL
strings with no depth, and `CrawlRequest` has no `max_depth` field, so a URL
two link-hops from the seed is fetched even though the claimed depth gate (for
example `max_depth = 1`) would forbid it; only `max_pages` bounds the crawl. -/
theorem C2_no_depth_gate :
    CrawlEvent.fetchHttp c2u0 ∈ (crawlRun c2env 10).trace ∧
    CrawlEvent.fetchHttp c2u1 ∈ (crawlRun c2env 10).trace ∧
    CrawlEvent.fetchHttp c2u2 ∈ (crawlRun c2env 10).trace ∧
    (crawlRun c2env 10).pages_crawled = 3 := by
  decide

/-- C3 is a code bug: on a fetch error the runner marks the URL visited and
moves on — the trace shows exactly one fetch attempt, the frontier ends empty
(nothing is re-pushed with an incremented retry count), and no retry or
backoff happens. -/
theorem C3_no_retry :
    (crawlRun c3env 10).trace = [CrawlEvent.fetchHttp c2u0] ∧
    (crawlRun c3env 10).to_visit = [] ∧
    c2u0 ∈ (crawlRun c3env 10).visited ∧
    (crawlRun c3env 10).pages_crawled = 0 := by
  decide

set_option maxRecDepth 100000 in
/-- C4 is a code bug: two URLs with identical bodies are both handed to the
indexer — `CrawlRunner::start` never calls `ContentDedup::is_duplicate`, even
though the dedup module (which would have flagged the second body as a
duplicate, third conjunct) exists precisely to prevent re-indexing. -/
theorem C4_no_dedup :
    CrawlEvent.indexPage c2u0 c4body ∈ (crawlRun c4env 10).trace ∧
    CrawlEvent.indexPage c2u1 c4body ∈ (crawlRun c4env 10).trace ∧
    (ContentDedup.is_duplicate (ContentDedup.runCalls [c4body]) c4body).1 = true := by
  decide

/-! ### Ranking lemmas (towards C9) -/

theorem apply_ranking_boost_data (r : WebPageResult) (config : RankingConfig)
    (query : Str) : (apply_ranking_boost r config query).data = r.data := rfl

theorem apply_ranking_boost_score (r : WebPageResult) (config : RankingConfig)
    (query : Str) :
    (apply_ranking_boost r config query).score =
      r.score + rankBoost r.data config query := by
  simp only [apply_ranking_boost, rankBoost]
  split_ifs <;> ring

theorem beats_irrefl (p : Nat × WebPageResult) : ¬ beats p p := by
  unfold beats
  rintro (h | ⟨-, h⟩)
  · exact lt_irrefl _ h
  · exact Nat.lt_irrefl _ h

theorem beats_asymm {p q : Nat × WebPageResult} (h1 : beats p q)
    (h2 : beats q p) : False := by
  unfold beats at h1 h2
  rcases h1 with h1 | ⟨he1, ht1⟩ <;> rcases h2 with h2 | ⟨he2, ht2⟩
  · exact lt_irrefl _ (lt_trans h1 h2)
  · rw [he2] at h1
    exact lt_irrefl _ h1
  · rw [he1] at h2
    exact lt_irrefl _ h2
  · omega

theorem pairwise_beats_orderedInsert (x : Nat × WebPageResult) :
    ∀ (l : List (Nat × WebPageResult)), l.Pairwise beats →
      (∀ q ∈ l, x.1 < q.1) → (List.orderedInsert taggedLE x l).Pairwise beats := by
  intro l
  induction l with
  | nil =>
    intro _ _
    simp [List.orderedInsert]
  | cons y ys ih =>
    intro hp htag
    rw [List.orderedInsert]
    by_cases h : taggedLE x y
    · rw [if_pos h]
      refine List.Pairwise.cons ?_ hp
      intro z hz
      have hzle : z.2.score ≤ x.2.score := by
        rcases List.mem_cons.mp hz with rfl | hz'
        · exact h
        · have hbyz := (List.pairwise_cons.mp hp).1 z hz'
          unfold beats at hbyz
          rcases hbyz with hlt | ⟨heq, -⟩
          · exact le_trans (le_of_lt hlt) h
          · rw [← heq]
            exact h
      rcases lt_or_eq_of_le hzle with hlt | heq
      · exact Or.inl hlt
      · exact Or.inr ⟨heq.symm, htag z hz⟩
    · rw [if_neg h]
      have hxy : x.2.score < y.2.score := not_le.mp h
      refine List.Pairwise.cons ?_ ?_
      · intro z hz
        rcases (List.mem_orderedInsert taggedLE).mp hz with rfl | hz'
        · exact Or.inl hxy
        · exact (List.pairwise_cons.mp hp).1 z hz'
      · exact ih (List.pairwise_cons.mp hp).2
          (fun q hq => htag q (List.mem_cons_of_mem _ hq))

theorem fst_ge_of_mem_enumFrom :
    ∀ (xs : List WebPageResult) (n : Nat) (p : Nat × WebPageResult),
      p ∈ List.enumFrom n xs → n ≤ p.1 := by
  intro xs
  induction xs with
  | nil =>
    intro n p h
    simp at h
  | cons x xs ih =>
    intro n p h
    rw [List.enumFrom_cons] at h
    rcases List.mem_cons.mp h with rfl | h'
    · exact Nat.le_refl n
    · exact Nat.le_trans (Nat.le_succ n) (ih (n + 1) p h')

theorem pairwise_beats_sortTagged :
    ∀ (xs : List WebPageResult) (n : Nat),
      (List.insertionSort taggedLE (List.enumFrom n xs)).Pairwise beats := by
  intro xs
  induction xs with
  | nil =>
    intro n
    simp
  | cons x xs ih =>
    intro n
    rw [List.enumFrom_cons, List.insertionSort]
    refine pairwise_beats_orderedInsert (n, x) _ (ih (n + 1)) ?_
    intro q hq
    have hb := fst_ge_of_mem_enumFrom xs (n + 1) q
      ((List.mem_insertionSort taggedLE).mp hq)
    show n < q.1
    omega

theorem enumFrom_fst_unique (xs : List WebPageResult) :
    ∀ (n : Nat) (p q : Nat × WebPageResult), p ∈ List.enumFrom n xs →
      q ∈ List.enumFrom n xs → p.1 = q.1 → p = q := by
  induction xs with
  | nil =>
    intro n p q hp _ _
    simp at hp
  | cons x xs ih =>
    intro n p q hp hq hpq
    rw [List.enumFrom_cons] at hp hq
    rcases List.mem_cons.mp hp with rfl | hp'
    · rcases List.mem_cons.mp hq with rfl | hq'
      · rfl
      · have hb := fst_ge_of_mem_enumFrom xs (n + 1) q hq'
        have hpq2 : n = q.1 := hpq
        exact absurd hpq2 (by omega)
    · rcases List.mem_cons.mp hq with rfl | hq'
      · have hb := fst_ge_of_mem_enumFrom xs (n + 1) p hp'
        have hpq2 : p.1 = n := hpq
        exact absurd hpq2 (by omega)
      · exact ih (n + 1) p q hp' hq' hpq

theorem findIdx_eq_countP_beats :
    ∀ (o : List (Nat × WebPageResult)) (j : Nat) (e : Nat × WebPageResult),
      o.Pairwise beats → e ∈ o → e.1 = j → (∀ p ∈ o, p.1 = j → p = e) →
      o.findIdx (fun p => p.1 == j) = o.countP (fun p => decide (beats p e)) := by
  intro o
  induction o with
  | nil =>
    intro j e _ he _ _
    simp at he
  | cons p rest ih =>
    intro j e hp he he1 huniq
    by_cases hpj : p.1 = j
    · have hpeq : p = e := huniq p (List.mem_cons_self p rest) hpj
      subst hpeq
      rw [List.findIdx_cons, List.countP_cons]
      have hc : (p.1 == j) = true := by simp [hpj]
      have h0 : decide (beats p p) = false := decide_eq_false (beats_irrefl p)
      have hrest : rest.countP (fun q => decide (beats q p)) = 0 := by
        rw [List.countP_eq_zero]
        intro q hq
        have hbq := (List.pairwise_cons.mp hp).1 q hq
        simp only [decide_eq_true_eq]
        exact fun hc2 => beats_asymm hbq hc2
      simp [hc, h0, hrest]
    · have he' : e ∈ rest := by
        rcases List.mem_cons.mp he with h | h'
        · exact absurd (h ▸ he1) hpj
        · exact h'
      have hbpe : beats p e := (List.pairwise_cons.mp hp).1 e he'
      rw [List.findIdx_cons, List.countP_cons,
        ih j e (List.pairwise_cons.mp hp).2 he' he1
          (fun q hq hqj => huniq q (List.mem_cons_of_mem p hq) hqj)]
      have hc : (p.1 == j) = false := by simp [hpj]
      have hd : decide (beats p e) = true := decide_eq_true hbpe
      simp [hc, hd]

theorem countP_le_of_forall2 {α : Type} {f g : α → Bool} :
    ∀ {xs ys : List α}, List.Forall₂ (fun p q => g q = true → f p = true) xs ys →
      ys.countP g ≤ xs.countP f := by
  intro xs ys h
  induction h with
  | nil => simp
  | @cons a b l1 l2 hab hl ih =>
    rw [List.countP_cons, List.countP_cons]
    by_cases hg : g b = true
    · have hf := hab hg
      rw [if_pos hg, if_pos hf]
      exact Nat.add_le_add ih (Nat.le_refl 1)
    · rw [if_neg hg, Nat.add_zero]
      exact Nat.le_trans ih (Nat.le_add_right _ _)

theorem forall2_enumFrom_middle
    (R : Nat × WebPageResult → Nat × WebPageResult → Prop) (A B : WebPageResult)
    (hpair : ∀ (k : Nat) (z : WebPageResult), R (k, z) (k, z))
    (hmid : ∀ k : Nat, R (k, A) (k, B)) :
    ∀ (u : List WebPageResult) (n : Nat) (v : List WebPageResult),
      List.Forall₂ R (List.enumFrom n (u ++ A :: v))
        (List.enumFrom n (u ++ B :: v)) := by
  intro u
  induction u with
  | nil =>
    intro n v
    rw [List.nil_append, List.nil_append, List.enumFrom_cons, List.enumFrom_cons]
    refine List.Forall₂.cons (hmid n) ?_
    rw [List.forall₂_same]
    intro x _
    exact hpair x.1 x.2
  | cons w u ih =>
    intro n v
    rw [List.cons_append, List.cons_append, List.enumFrom_cons, List.enumFrom_cons]
    exact List.Forall₂.cons (hpair n w) (ih (n + 1) v)

theorem mem_enumFrom_middle (y : WebPageResult) :
    ∀ (u : List WebPageResult) (n : Nat) (v : List WebPageResult),
      (n + u.length, y) ∈ List.enumFrom n (u ++ y :: v) := by
  intro u
  induction u with
  | nil =>
    intro n v
    rw [List.nil_append, List.enumFrom_cons, List.length_nil, Nat.add_zero]
    exact List.mem_cons_self _ _
  | cons w u ih =>
    intro n v
    rw [List.cons_append, List.enumFrom_cons]
    refine List.mem_cons_of_mem _ ?_
    have h := ih (n + 1) v
    have heq : n + 1 + u.length = n + (w :: u).length := by
      rw [List.length_cons]
      omega
    rw [heq] at h
    exact h

theorem beats_le_mono (A B : WebPageResult) (j : Nat) (hs : A.score ≤ B.score)
    (p : Nat × WebPageResult) : beats p (j, B) → beats p (j, A) := by
  intro h
  unfold beats at h ⊢
  rcases h with h | ⟨h1, h2⟩
  · exact Or.inl (lt_of_le_of_lt hs h)
  · rcases lt_or_eq_of_le hs with hlt | heq
    · exact Or.inl (lt_of_lt_of_eq hlt h1.symm)
    · exact Or.inr ⟨h1.trans heq.symm, h2⟩

theorem beats_self_tag (A B : WebPageResult) (j k : Nat) :
    beats (k, B) (j, B) → beats (k, A) (j, A) := by
  intro h
  unfold beats at h ⊢
  rcases h with h | ⟨-, h2⟩
  · exact absurd h (lt_irrefl _)
  · exact Or.inr ⟨rfl, h2⟩

theorem enum_eq_enumFromZero {α : Type} (l : List α) :
    l.enum = List.enumFrom 0 l := rfl

/-- C9: holding all other inputs equal, increasing the base score of one
result (by any `δ ≥ 0`) before `apply_ranking_boosts` cannot decrease that
result's final rank: each per-result boost is independent of the base score,
and the output is re-sorted descending by final score with ties broken by
input order (stable sort).  The rank is read off the position-tagged stable
sort `rankedTagged`, whose untagged projection is exactly
`apply_ranking_boosts` (second conjunct). -/
theorem C9_rank_monotone (pre post : List WebPageResult) (r : WebPageResult)
    (config : RankingConfig) (query : Str) (δ : ℚ) (hδ : 0 ≤ δ) :
    finalRank (pre ++ { r with score := r.score + δ } :: post) config query
        pre.length ≤
      finalRank (pre ++ r :: post) config query pre.length ∧
    (rankedTagged (pre ++ r :: post) config query).map Prod.snd =
      apply_ranking_boosts (pre ++ r :: post) config query := by
  have hbscore : (apply_ranking_boost { r with score := r.score + δ } config
        query).score = (apply_ranking_boost r config query).score + δ := by
    rw [apply_ranking_boost_score, apply_ranking_boost_score]
    show r.score + δ + rankBoost r.data config query
        = r.score + rankBoost r.data config query + δ
    ring
  constructor
  · simp only [finalRank, rankedTagged, List.map_append, List.map_cons,
      enum_eq_enumFromZero]
    set u := pre.map (fun x => apply_ranking_boost x config query) with hu
    set v := post.map (fun x => apply_ranking_boost x config query) with hv
    set A := apply_ranking_boost r config query with hA
    set B := apply_ranking_boost { r with score := r.score + δ } config query
      with hB
    have hlen : u.length = pre.length := by
      rw [hu]
      exact List.length_map _ _
    have hAmem := mem_enumFrom_middle A u 0 v
    have hBmem := mem_enumFrom_middle B u 0 v
    rw [Nat.zero_add, hlen] at hAmem hBmem
    have hpwA := pairwise_beats_sortTagged (u ++ A :: v) 0
    have hpwB := pairwise_beats_sortTagged (u ++ B :: v) 0
    rw [findIdx_eq_countP_beats _ pre.length (pre.length, B) hpwB
        ((List.mem_insertionSort taggedLE).mpr hBmem) rfl
        (fun p hpo hp1 => enumFrom_fst_unique (u ++ B :: v) 0 p (pre.length, B)
          ((List.mem_insertionSort taggedLE).mp hpo) hBmem hp1),
      findIdx_eq_countP_beats _ pre.length (pre.length, A) hpwA
        ((List.mem_insertionSort taggedLE).mpr hAmem) rfl
        (fun p hpo hp1 => enumFrom_fst_unique (u ++ A :: v) 0 p (pre.length, A)
          ((List.mem_insertionSort taggedLE).mp hpo) hAmem hp1),
      (List.perm_insertionSort taggedLE (List.enumFrom 0 (u ++ B :: v))).countP_eq
        (fun p => decide (beats p (pre.length, B))),
      (List.perm_insertionSort taggedLE (List.enumFrom 0 (u ++ A :: v))).countP_eq
        (fun p => decide (beats p (pre.length, A)))]
    refine countP_le_of_forall2 ?_
    refine forall2_enumFrom_middle _ A B ?_ ?_ u 0 v
    · intro k z h
      simp only [decide_eq_true_eq] at h ⊢
      refine beats_le_mono A B pre.length ?_ (k, z) h
      rw [hbscore]
      linarith
    · intro k h
      simp only [decide_eq_true_eq] at h ⊢
      exact beats_self_tag A B pre.length k h
  · simp only [rankedTagged, apply_ranking_boosts]
    rw [List.map_insertionSort (r := taggedLE) (s := rankLE) Prod.snd _
      (fun a _ b _ => Iff.rfl)]
    rw [enum_eq_enumFromZero, List.enumFrom_map_snd]

/-- Witness for C9 at a concrete input: two results, default config, empty
query, the first result's base score raised by 1. -/
theorem C9_rank_monotone_witness :
    (0 : ℚ) ≤ 1 ∧
    (finalRank (([] : List WebPageResult) ++
          { c9r1 with score := c9r1.score + 1 } :: [c9r2])
        RankingConfig.defaultConfig (str "")
        ([] : List WebPageResult).length ≤
      finalRank (([] : List WebPageResult) ++ c9r1 :: [c9r2])
        RankingConfig.defaultConfig (str "")
        ([] : List WebPageResult).length ∧
    (rankedTagged (([] : List WebPageResult) ++ c9r1 :: [c9r2])
        RankingConfig.defaultConfig (str "")).map Prod.snd =
      apply_ranking_boosts (([] : List WebPageResult) ++ c9r1 :: [c9r2])
        RankingConfig.defaultConfig (str "")) :=
  ⟨by norm_num,
    C9_rank_monotone [] [c9r2] c9r1 RankingConfig.defaultConfig (str "") 1
      (by norm_num)⟩
